import Mathlib

/-!
# rebase-migration: grouping and renumbering of migration files

A shallow embedding of `rebase-migration.go`.

* Go strings are modelled as lists of characters (`Str`).
* `int` is the 64-bit two's-complement integer of the usual Go targets: values
  are `Int`s, `strconv.Atoi` rejects decimals outside the range and `++` wraps.
* `log.Fatalf` ends the process: a fatal error is a result of its own, carrying
  the state reached; an out-of-range index is a run-time panic.
* The filesystem is a partial map from paths to file contents; `os.Stat` fails
  exactly on a missing path, `os.Rename` fails exactly on a missing source and
  replaces an existing destination. The loops of `renameMigrations` are also given
  over any behaviour of `os.Rename` (`renameMigrationsWith`), for what holds when a
  rename fails with its source present.
* The `git` commands are given by their results: the output of `git log`, whether
  `git add` and `git commit` succeed, the output of `git status`.
-/

namespace RebaseMigration

/-- Go strings, as lists of characters. -/
abbrev Str := List Char

/-! ## Library functions used by the program -/

/-- Model of `strings.HasSuffix`. -/
def hasSuffix (s suf : Str) : Bool := suf.isSuffixOf s

/-- Model of `strings.HasPrefix`. -/
def hasPrefix (s pre : Str) : Bool := pre.isPrefixOf s

/-- Model of `strings.TrimSuffix`: `s` without the trailing `suf`, when it ends in it. -/
def trimSuffix (s suf : Str) : Str :=
  if hasSuffix s suf then s.take (s.length - suf.length) else s

/-- Model of `filepath.Base` with `/` as the separator: the last element of the path,
trailing slashes removed; `.` for the empty path and `/` for a path of slashes only. -/
def base (path : Str) : Str :=
  if path = [] then ['.']
  else
    let p := path.rdropWhile (fun c => c == '/')
    if p = [] then ['/'] else p.rtakeWhile (fun c => c != '/')

/-- First field of `strings.Split(s, "_")`: the part of `s` before its first underscore. -/
def splitHead (s : Str) : Str := s.takeWhile (fun c => c != '_')

/-- Second result of `strings.Cut(s, "_")`: the part of `s` after its first underscore,
empty when there is none. -/
def cutAfter (s : Str) : Str := (s.dropWhile (fun c => c != '_')).drop 1

/-- Decimal digit test. -/
def isDigit (c : Char) : Bool := decide ('0'.toNat ≤ c.toNat ∧ c.toNat ≤ '9'.toNat)

/-- Value of a decimal digit. -/
def digitVal (c : Char) : Nat := c.toNat - '0'.toNat

/-- Reads a run of decimal digits, most significant first, onto the accumulator;
fails on any other character. -/
def parseDigitsFrom : Nat → Str → Option Nat
  | acc, [] => some acc
  | acc, c :: cs => if isDigit c then parseDigitsFrom (10 * acc + digitVal c) cs else none

/-- A non-empty run of decimal digits read as a natural number. -/
def parseDigits (s : Str) : Option Nat :=
  if s = [] then none else parseDigitsFrom 0 s

/-- Smallest value of `int`. -/
def minInt : Int := -(2 ^ 63)

/-- Largest value of `int`. -/
def maxInt : Int := 2 ^ 63 - 1

/-- A leading sign taken off: whether it is a minus, and the rest. -/
def splitSign (s : Str) : Bool × Str :=
  match s with
  | '-' :: r => (true, r)
  | '+' :: r => (false, r)
  | _ => (false, s)

/-- The integer of a sign and a magnitude. -/
def applySign (neg : Bool) (n : Nat) : Int := if neg then -(n : Int) else (n : Int)

/-- An optional sign followed by one or more decimal digits, read as an integer of any
size. -/
def parseSigned (s : Str) : Option Int :=
  match parseDigits (splitSign s).2 with
  | none => none
  | some n => some (applySign (splitSign s).1 n)

/-- Model of `strconv.Atoi`: an optional sign, then one or more decimal digits, the
value within the range of `int`; `none` stands for a non-nil error. -/
def atoi (s : Str) : Option Int :=
  match parseSigned s with
  | none => none
  | some v => if minInt ≤ v ∧ v ≤ maxInt then some v else none

/-- Two's-complement wrap-around of `int` arithmetic. -/
def wrapInt (x : Int) : Int := (x - minInt) % 2 ^ 64 + minInt

/-- Decimal digits of a natural number, most significant first (`fuel` bounds the
number of digits produced). -/
def natDigitsAux : Nat → Nat → Str → Str
  | 0, _, acc => acc
  | fuel + 1, n, acc =>
    let acc1 := Nat.digitChar (n % 10) :: acc
    if n / 10 = 0 then acc1 else natDigitsAux fuel (n / 10) acc1

/-- Decimal representation of a natural number. -/
def natDigits (n : Nat) : Str := natDigitsAux (n + 1) n []

/-- Left padding with zeros up to `width` characters. -/
def padZeros (width : Nat) (s : Str) : Str := List.replicate (width - s.length) '0' ++ s

/-- Model of the verb `%06d` of `fmt.Sprintf`: zero padding to six characters, the sign
counted in the width. -/
def fmt06d (v : Int) : Str :=
  if v < 0 then '-' :: padZeros 5 (natDigits v.natAbs) else padZeros 6 (natDigits v.toNat)

/-! ## The grouper -/

/-- A version number with the logical names that claim it, in insertion order. -/
structure MigrationGroup where
  Version : Int
  BaseNames : List Str
  deriving DecidableEq, Repr

/-- An empty group for a version. -/
def NewMigrationGroup (version : Int) : MigrationGroup :=
  { Version := version, BaseNames := [] }

/-- The ways the program ends through `log.Fatalf`. -/
inductive Fatal where
  | invalidVersion (versionStr migration : Str)
  | renameFailed (oldName newName : Str)
  deriving DecidableEq, Repr

deriving instance DecidableEq for Except

/-- The Go map `map[int]MigrationGroup`, as an association list without repeated keys. -/
abbrev GroupMap := List (Int × MigrationGroup)

/-- Map read `m[k]`. -/
def mapGet : GroupMap → Int → Option MigrationGroup
  | [], _ => none
  | (k1, g) :: rest, k => if k1 = k then some g else mapGet rest k

/-- Map write `m[k] = g`. -/
def mapSet : GroupMap → Int → MigrationGroup → GroupMap
  | [], k, g => [(k, g)]
  | (k1, g1) :: rest, k, g => if k1 = k then (k, g) :: rest else (k1, g1) :: mapSet rest k g

/-- The version text of a migration file: `strings.Split(filepath.Base(migration), "_")[0]`. -/
def versionStr (migration : Str) : Str := splitHead (base migration)

/-- The version of a migration file, when its version text is an `int`. -/
def parseVersion (migration : Str) : Option Int := atoi (versionStr migration)

/-- The logical name of a migration file: what follows the first underscore of the base
name once `.up.sql` and then `.down.sql` have been trimmed. -/
def logicalName (migration : Str) : Str :=
  cutAfter (trimSuffix (trimSuffix (base migration) ".up.sql".toList) ".down.sql".toList)

/-- The two maps of the loop of `groupByVersionNumber`: the set `addedBaseNames` (the names
in the order they were added) and `migrationGroupsMap`. -/
structure GroupState where
  addedBaseNames : List Str
  migrationGroupsMap : GroupMap

/-- One iteration of the loop of `groupByVersionNumber`. -/
def groupStep (st : GroupState) (migration : Str) : Except Fatal GroupState :=
  match atoi (versionStr migration) with
  | none => .error (Fatal.invalidVersion (versionStr migration) migration)
  | some version =>
    let baseName := logicalName migration
    if baseName ∈ st.addedBaseNames then .ok st
    else
      let group := (mapGet st.migrationGroupsMap version).getD (NewMigrationGroup version)
      let group1 := { group with BaseNames := group.BaseNames ++ [baseName] }
      .ok { addedBaseNames := st.addedBaseNames ++ [baseName],
            migrationGroupsMap := mapSet st.migrationGroupsMap version group1 }

/-- The loop of `groupByVersionNumber` over the files. -/
def groupLoop : GroupState → List Str → Except Fatal GroupState
  | st, [] => .ok st
  | st, migration :: rest =>
    match groupStep st migration with
    | .error e => .error e
    | .ok st1 => groupLoop st1 rest

/-- The order of `sort.Slice` in `groupByVersionNumber`. The comparison of the source is
`<`; on a map's values, whose versions are pairwise distinct, `≤` sorts alike. -/
def versionLE (a b : MigrationGroup) : Prop := a.Version ≤ b.Version

instance : DecidableRel versionLE := fun a b => inferInstanceAs (Decidable (a.Version ≤ b.Version))

instance : IsTotal MigrationGroup versionLE := ⟨fun a b => Int.le_total a.Version b.Version⟩

instance : IsTrans MigrationGroup versionLE :=
  ⟨fun a b c (h1 : a.Version ≤ b.Version) (h2 : b.Version ≤ c.Version) => Int.le_trans h1 h2⟩

/-- The values of the map sorted by version. The keys of a map are pairwise distinct, so
the result does not depend on the order in which the map is traversed nor on the
sorting algorithm. -/
def sortGroups (m : GroupMap) : List MigrationGroup :=
  (m.map Prod.snd).insertionSort versionLE

/-- Model of `groupByVersionNumber`. -/
def groupByVersionNumber (migrations : List Str) : Except Fatal (List MigrationGroup) :=
  match groupLoop { addedBaseNames := [], migrationGroupsMap := [] } migrations with
  | .error e => .error e
  | .ok st => .ok (sortGroups st.migrationGroupsMap)

/-! ## The renumberer -/

/-- The filesystem: the content of the file at each path, `none` where there is no file. -/
abbrev FS := Str → Option Nat

/-- The filesystem after the file at `oldName`, of content `content`, has moved to
`newName`. -/
def moved (fs : FS) (oldName newName : Str) (content : Nat) : FS :=
  fun p => if p = newName then some content else if p = oldName then none else fs p

/-- Model of `os.Rename` on files: fails when the source is missing, otherwise the content
moves to the new path, replacing what was there. -/
def rename (fs : FS) (oldName newName : Str) : Option FS :=
  match fs oldName with
  | none => none
  | some content => some (moved fs oldName newName content)

/-- The path `fmt.Sprintf("%s/%06d_%s.up.sql", migrationPath, version, baseName)`. -/
def upName (migrationPath : Str) (version : Int) (baseName : Str) : Str :=
  migrationPath ++ '/' :: (fmt06d version ++ '_' :: (baseName ++ ".up.sql".toList))

/-- The path `fmt.Sprintf("%s/%06d_%s.down.sql", migrationPath, version, baseName)`. -/
def downName (migrationPath : Str) (version : Int) (baseName : Str) : Str :=
  migrationPath ++ '/' :: (fmt06d version ++ '_' :: (baseName ++ ".down.sql".toList))

/-- The state of a run of `renameMigrations`: the filesystem, the counter
`highestVersionNumber`, and the successful calls of `os.Rename` so far, in order. -/
structure RState where
  fs : FS
  highest : Int
  renames : List (Str × Str)

/-- How a run of `renameMigrations` ends. -/
inductive Outcome where
  | done (st : RState)
  | fatal (err : Fatal) (st : RState)
  | panic

/-- The body of the inner loop of `renameMigrations` for the name at index `i`. -/
def renameName (migrationPath : Str) (version : Int) (st : RState) (i : Nat)
    (baseName : Str) : Outcome :=
  if i = 0 then .done st
  else
    let upOldName := upName migrationPath version baseName
    let downOldName := downName migrationPath version baseName
    if st.fs upOldName = none then .done st
    else
      let highest := wrapInt (st.highest + 1)
      let upNewName := upName migrationPath highest baseName
      let downNewName := downName migrationPath highest baseName
      match rename st.fs upOldName upNewName with
      | none => .fatal (Fatal.renameFailed upOldName upNewName) { st with highest := highest }
      | some fs1 =>
        match rename fs1 downOldName downNewName with
        | none =>
          .fatal (Fatal.renameFailed downOldName downNewName)
            { fs := fs1, highest := highest, renames := st.renames ++ [(upOldName, upNewName)] }
        | some fs2 =>
          .done { fs := fs2, highest := highest,
                  renames := st.renames ++ [(upOldName, upNewName), (downOldName, downNewName)] }

/-- The inner loop of `renameMigrations`, from index `i` on. -/
def renameNames (migrationPath : Str) (version : Int) : RState → Nat → List Str → Outcome
  | st, _, [] => .done st
  | st, i, baseName :: rest =>
    match renameName migrationPath version st i baseName with
    | .done st1 => renameNames migrationPath version st1 (i + 1) rest
    | o => o

/-- The outer loop of `renameMigrations`. -/
def renameGroups (migrationPath : Str) : RState → List MigrationGroup → Outcome
  | st, [] => .done st
  | st, group :: rest =>
    match renameNames migrationPath group.Version st 0 group.BaseNames with
    | .done st1 => renameGroups migrationPath st1 rest
    | o => o

/-- The first line of `renameMigrations`: the version of the last group, when there is one. -/
def initialCounter (migrationGroups : List MigrationGroup) : Option Int :=
  migrationGroups.getLast?.map MigrationGroup.Version

/-- Model of `renameMigrations`: reading the last group of an empty slice panics. -/
def renameMigrations (migrationPath : Str) (migrationGroups : List MigrationGroup)
    (fs : FS) : Outcome :=
  match initialCounter migrationGroups with
  | none => .panic
  | some highest => renameGroups migrationPath { fs := fs, highest := highest, renames := [] } migrationGroups

/-! ## The renumberer over any behaviour of `os.Rename` -/

/-- The body of the inner loop of `renameMigrations` for the name at index `i`, with
`os.Rename` given as a function `ren` of the filesystem, the old and the new name: the
filesystem after the call, `none` when the call fails. -/
def renameNameWith (ren : FS → Str → Str → Option FS) (migrationPath : Str) (version : Int)
    (st : RState) (i : Nat) (baseName : Str) : Outcome :=
  if i = 0 then .done st
  else
    let upOldName := upName migrationPath version baseName
    let downOldName := downName migrationPath version baseName
    if st.fs upOldName = none then .done st
    else
      let highest := wrapInt (st.highest + 1)
      let upNewName := upName migrationPath highest baseName
      let downNewName := downName migrationPath highest baseName
      match ren st.fs upOldName upNewName with
      | none => .fatal (Fatal.renameFailed upOldName upNewName) { st with highest := highest }
      | some fs1 =>
        match ren fs1 downOldName downNewName with
        | none =>
          .fatal (Fatal.renameFailed downOldName downNewName)
            { fs := fs1, highest := highest, renames := st.renames ++ [(upOldName, upNewName)] }
        | some fs2 =>
          .done { fs := fs2, highest := highest,
                  renames := st.renames ++ [(upOldName, upNewName), (downOldName, downNewName)] }

/-- The inner loop of `renameMigrations` over `ren`, from index `i` on. -/
def renameNamesWith (ren : FS → Str → Str → Option FS) (migrationPath : Str) (version : Int) :
    RState → Nat → List Str → Outcome
  | st, _, [] => .done st
  | st, i, baseName :: rest =>
    match renameNameWith ren migrationPath version st i baseName with
    | .done st1 => renameNamesWith ren migrationPath version st1 (i + 1) rest
    | o => o

/-- The outer loop of `renameMigrations` over `ren`. -/
def renameGroupsWith (ren : FS → Str → Str → Option FS) (migrationPath : Str) :
    RState → List MigrationGroup → Outcome
  | st, [] => .done st
  | st, group :: rest =>
    match renameNamesWith ren migrationPath group.Version st 0 group.BaseNames with
    | .done st1 => renameGroupsWith ren migrationPath st1 rest
    | o => o

/-- Model of `renameMigrations` over `ren`; `renameMigrations` is the case of `rename`. -/
def renameMigrationsWith (ren : FS → Str → Str → Option FS) (migrationPath : Str)
    (migrationGroups : List MigrationGroup) (fs : FS) : Outcome :=
  match initialCounter migrationGroups with
  | none => .panic
  | some highest =>
    renameGroupsWith ren migrationPath { fs := fs, highest := highest, renames := [] }
      migrationGroups

/-- A behaviour of `os.Rename` that also fails with the source present: the paths `dirs`
are directories, onto which no file can be moved. -/
def renameOntoDirs (dirs : List Str) (fs : FS) (oldName newName : Str) : Option FS :=
  if newName ∈ dirs then none else rename fs oldName newName

/-- A filesystem holding the listed files, the content of each being its position. -/
def fsOfList (files : List Str) : FS := fun p =>
  if p ∈ files then some (files.indexOf p) else none

/-! ## Invariant of the grouping loop -/

/-- Position of the first occurrence of `a` in `l` (the length of `l` when there is none). -/
def firstIndex (a : Str) : List Str → Nat
  | [] => 0
  | b :: l => if b = a then 0 else firstIndex a l + 1

/-- What holds of the two maps of `groupByVersionNumber` once the files `pre` have been
processed. -/
structure GroupInv (st : GroupState) (pre : List Str) : Prop where
  keys_nodup : (st.migrationGroupsMap.map Prod.fst).Nodup
  version_eq : ∀ e ∈ st.migrationGroupsMap, e.2.Version = e.1
  in_range : ∀ e ∈ st.migrationGroupsMap, minInt ≤ e.1 ∧ e.1 ≤ maxInt
  added_iff : ∀ n, n ∈ st.addedBaseNames ↔ n ∈ pre.map logicalName
  added_nodup : st.addedBaseNames.Nodup
  names_perm : (st.migrationGroupsMap.flatMap (fun e => e.2.BaseNames)).Perm st.addedBaseNames
  first_file : ∀ e ∈ st.migrationGroupsMap, ∀ n ∈ e.2.BaseNames,
    ∃ m, pre.find? (fun f => decide (logicalName f = n)) = some m ∧ parseVersion m = some e.1
  sublist : ∀ e ∈ st.migrationGroupsMap, e.2.BaseNames.Sublist st.addedBaseNames
  ordered : st.addedBaseNames.Pairwise
    (fun a b => firstIndex a (pre.map logicalName) < firstIndex b (pre.map logicalName))
  nonempty : ∀ e ∈ st.migrationGroupsMap, e.2.BaseNames ≠ []

/-! ## Notions used to state what a run does -/

/-- The state in which a run ended, when it did not panic. -/
def Outcome.state? : Outcome → Option RState
  | .done st => some st
  | .fatal _ st => some st
  | .panic => none

/-- All calls of `os.Rename` made by a run, in order, the failed one included. -/
def Outcome.calls : Outcome → List (Str × Str)
  | .done st => st.renames
  | .fatal (Fatal.renameFailed oldName newName) st => st.renames ++ [(oldName, newName)]
  | .fatal (Fatal.invalidVersion _ _) st => st.renames
  | .panic => []

/-- The path `p` is the up file or the down file of the migration `baseName` under
`version`. -/
def isFileOf (migrationPath : Str) (version : Int) (baseName : Str) (p : Str) : Prop :=
  p = upName migrationPath version baseName ∨ p = downName migrationPath version baseName

/-- The names that `renameMigrations` does not skip by index, with the version of their
group, in processing order: every name of every group but the first. -/
def workItems (migrationGroups : List MigrationGroup) : List (Int × Str) :=
  migrationGroups.flatMap (fun g => g.BaseNames.tail.map (fun n => (g.Version, n)))

/-- The two loops of `renameMigrations` as one loop over the work items. -/
def runItems (migrationPath : Str) : RState → List (Int × Str) → Outcome
  | st, [] => .done st
  | st, it :: rest =>
    match renameName migrationPath it.1 st 1 it.2 with
    | .done st1 => runItems migrationPath st1 rest
    | o => o

/-- The calls of `os.Rename` that move the pairs `renamed`, the counter being `h` before
the first of them. -/
def pairCalls (migrationPath : Str) : Int → List (Int × Str) → List (Str × Str)
  | _, [] => []
  | h, it :: rest =>
    (upName migrationPath it.1 it.2, upName migrationPath (wrapInt (h + 1)) it.2) ::
    (downName migrationPath it.1 it.2, downName migrationPath (wrapInt (h + 1)) it.2) ::
    pairCalls migrationPath (wrapInt (h + 1)) rest

/-! ## The history reader -/

/-- Model of `strings.Split(s, "\n")`: the pieces of `s` between line feeds, one piece for
a string without any. -/
def splitLines : Str → List Str
  | [] => [[]]
  | c :: cs =>
    if c = '\n' then [] :: splitLines cs
    else
      match splitLines cs with
      | [] => [[c]]
      | line :: rest => (c :: line) :: rest

/-- The test of the loop of `getMigrationFiles` on one line of the output. -/
def isMigrationFile (migrationPath file : Str) : Bool :=
  hasPrefix file migrationPath &&
    (hasSuffix file ".up.sql".toList || hasSuffix file ".down.sql".toList)

/-- The loop of `getMigrationFiles`: the lines that pass the test are appended to
`migrationFiles`. -/
def collectMigrationFiles (migrationPath : Str) : List Str → List Str → List Str
  | migrationFiles, [] => migrationFiles
  | migrationFiles, file :: rest =>
    if isMigrationFile migrationPath file then
      collectMigrationFiles migrationPath (migrationFiles ++ [file]) rest
    else collectMigrationFiles migrationPath migrationFiles rest

/-- The ways the program ends through `log.Fatalf` after a failed `git` command. -/
inductive GitFatal where
  | logFailed
  | stageFailed
  | statusFailed
  | commitFailed
  deriving DecidableEq, Repr

/-- Model of `getMigrationFiles`, as a function of the path and of the result of the
`git log` command: its combined output, `none` when the command failed. -/
def getMigrationFiles (migrationPath : Str) (gitLog : Option Str) : Except GitFatal (List Str) :=
  match gitLog with
  | none => .error GitFatal.logFailed
  | some output => .ok (collectMigrationFiles migrationPath [] (splitLines output))

/-- A line names a file located directly under the directory `migrationPath`: it is the
path, a separator unless the path ends with one, and a name without separator. -/
def directlyUnder (migrationPath line : Str) : Bool :=
  let dir := if hasSuffix migrationPath ['/'] then migrationPath else migrationPath ++ ['/']
  hasPrefix line dir && !(line.drop dir.length).contains '/'

/-! ## The committer -/

/-- The results of the three `git` commands of `commitChanges`, were they to be run:
whether `git add` succeeds, the output of `git status --porcelain` (`none` when it
fails), and whether `git commit` succeeds. -/
structure GitResults where
  stageOk : Bool
  status : Option Str
  commitOk : Bool

/-- The `git` commands that `commitChanges` runs. -/
inductive GitOp where
  | add (migrationPath : Str)
  | status (migrationPath : Str)
  | commit (message : Str)
  deriving DecidableEq, Repr

/-- What a run of `commitChanges` did: the commands run, in order, the fatal error it
ended with, if any, and the lines printed on standard output. -/
structure CommitRun where
  ops : List GitOp
  fatal : Option GitFatal
  printed : List Str
  deriving DecidableEq, Repr

/-- The message of the commit. -/
def commitMessage : Str := "Rename migration files to resolve version number conflicts".toList

/-- Model of `commitChanges`. -/
def commitChanges (migrationPath : Str) (git : GitResults) : CommitRun :=
  if !git.stageOk then
    { ops := [GitOp.add migrationPath], fatal := some GitFatal.stageFailed, printed := [] }
  else
    match git.status with
    | none =>
      { ops := [GitOp.add migrationPath, GitOp.status migrationPath],
        fatal := some GitFatal.statusFailed, printed := [] }
    | some statusOutput =>
      if statusOutput.length > 0 then
        if !git.commitOk then
          { ops := [GitOp.add migrationPath, GitOp.status migrationPath,
              GitOp.commit commitMessage],
            fatal := some GitFatal.commitFailed, printed := [] }
        else
          { ops := [GitOp.add migrationPath, GitOp.status migrationPath,
              GitOp.commit commitMessage],
            fatal := none,
            printed := ["Committed changes: ".toList ++ commitMessage] }
      else
        { ops := [GitOp.add migrationPath, GitOp.status migrationPath],
          fatal := none,
          printed := ["No changes to commit for migration files.".toList] }

/-! ## Partner files -/

/-- The input with the `.down.sql` partner added after each `.up.sql` file: the same path
with `.down.sql` in place of the final `.up.sql`. -/
def withDownPartners : List Str → List Str
  | [] => []
  | f :: rest =>
    if hasSuffix f ".up.sql".toList then
      f :: (trimSuffix f ".up.sql".toList ++ ".down.sql".toList) :: withDownPartners rest
    else f :: withDownPartners rest

/-! ## Concrete inputs -/

/-- The directory of the examples. -/
def dirMigrations : Str := "migrations".toList

/-- A history in which `init` and `add_users` both claim version 1. -/
def historyInitUsers : List Str :=
  ["migrations/000001_init.up.sql".toList, "migrations/000001_init.down.sql".toList,
   "migrations/000001_add_users.up.sql".toList, "migrations/000001_add_users.down.sql".toList]

/-- The groups of `historyInitUsers`. -/
def groupsInitUsers : List MigrationGroup :=
  [{ Version := 1, BaseNames := ["init".toList, "add_users".toList] }]

/-- A filesystem holding exactly the files of `historyInitUsers`. -/
def fsInitUsers : FS := fsOfList historyInitUsers

/-- Three names on version 5 and one on version 9. -/
def groupsFiveNine : List MigrationGroup :=
  [{ Version := 5, BaseNames := ["first".toList, "second".toList, "third".toList] },
   { Version := 9, BaseNames := ["ninth".toList] }]

/-- A filesystem holding both files of every name of `groupsFiveNine`. -/
def fsFiveNine : FS :=
  fsOfList
    ["migrations/000005_first.up.sql".toList, "migrations/000005_first.down.sql".toList,
     "migrations/000005_second.up.sql".toList, "migrations/000005_second.down.sql".toList,
     "migrations/000005_third.up.sql".toList, "migrations/000005_third.down.sql".toList,
     "migrations/000009_ninth.up.sql".toList, "migrations/000009_ninth.down.sql".toList]

/-- Two names on the greatest version an `int` holds. -/
def groupsMaxInt : List MigrationGroup :=
  [{ Version := 9223372036854775807, BaseNames := ["a".toList, "b".toList] }]

/-- A filesystem holding the two files of the second name of `groupsMaxInt`. -/
def fsMaxInt : FS :=
  fsOfList
    ["migrations/9223372036854775807_b.up.sql".toList,
     "migrations/9223372036854775807_b.down.sql".toList]

/-- A filesystem holding both files of `init` and only the down file of `add_users`. -/
def fsDownOnly : FS :=
  fsOfList
    ["migrations/000001_init.up.sql".toList, "migrations/000001_init.down.sql".toList,
     "migrations/000001_add_users.down.sql".toList]

/-- A filesystem holding both files of `init` and only the up file of `add_users`. -/
def fsUpOnly : FS :=
  fsOfList
    ["migrations/000001_init.up.sql".toList, "migrations/000001_init.down.sql".toList,
     "migrations/000001_add_users.up.sql".toList]

/-- A filesystem holding both files of `init` and nothing of `add_users`. -/
def fsInitOnly : FS :=
  fsOfList
    ["migrations/000001_init.up.sql".toList, "migrations/000001_init.down.sql".toList]

/-- Two groups out of version order that share the name `b`. -/
def groupsUnsorted : List MigrationGroup :=
  [{ Version := 2, BaseNames := ["x".toList, "b".toList] },
   { Version := 0, BaseNames := ["y".toList, "c".toList, "b".toList] }]

/-- A filesystem holding both files of `c` and of `b` under version 0. -/
def fsUnsorted : FS :=
  fsOfList
    ["migrations/000000_c.up.sql".toList, "migrations/000000_c.down.sql".toList,
     "migrations/000000_b.up.sql".toList, "migrations/000000_b.down.sql".toList]

/-- A sorted group list from the least to the greatest `int`. -/
def groupsMinMax : List MigrationGroup :=
  [{ Version := -9223372036854775808, BaseNames := ["a".toList, "b".toList] },
   { Version := 9223372036854775807, BaseNames := ["c".toList] }]

/-- A filesystem holding both files of `b` under the least `int`. -/
def fsMinMax : FS :=
  fsOfList
    ["migrations/-9223372036854775808_b.up.sql".toList,
     "migrations/-9223372036854775808_b.down.sql".toList]

/-- A history in which `add_users`, first seen under version 1, was renumbered to version 2
by an earlier run, and `other` then came in under version 2. -/
def historyRenumbered : List Str :=
  ["migrations/000001_init.up.sql".toList, "migrations/000001_init.down.sql".toList,
   "migrations/000001_add_users.up.sql".toList, "migrations/000001_add_users.down.sql".toList,
   "migrations/000002_add_users.up.sql".toList, "migrations/000002_add_users.down.sql".toList,
   "migrations/000002_other.up.sql".toList, "migrations/000002_other.down.sql".toList]

/-- The groups of `historyRenumbered`. -/
def groupsRenumbered : List MigrationGroup :=
  [{ Version := 1, BaseNames := ["init".toList, "add_users".toList] },
   { Version := 2, BaseNames := ["other".toList] }]

/-- The files on disk after the earlier run: `init` under 1, `add_users` and `other`
under 2. -/
def fsRenumbered : FS :=
  fsOfList
    ["migrations/000001_init.up.sql".toList, "migrations/000001_init.down.sql".toList,
     "migrations/000002_add_users.up.sql".toList, "migrations/000002_add_users.down.sql".toList,
     "migrations/000002_other.up.sql".toList, "migrations/000002_other.down.sql".toList]

/-- A history with `a` under the least `int` and `c`, then `b`, under the greatest. -/
def historyOverflow : List Str :=
  ["migrations/-9223372036854775808_a.up.sql".toList,
   "migrations/-9223372036854775808_a.down.sql".toList,
   "migrations/9223372036854775807_c.up.sql".toList,
   "migrations/9223372036854775807_c.down.sql".toList,
   "migrations/9223372036854775807_b.up.sql".toList,
   "migrations/9223372036854775807_b.down.sql".toList]

/-- The groups of `historyOverflow`. -/
def groupsOverflow : List MigrationGroup :=
  [{ Version := -9223372036854775808, BaseNames := ["a".toList] },
   { Version := 9223372036854775807, BaseNames := ["c".toList, "b".toList] }]

/-- Two groups of one name each. -/
def groupsNoConflict : List MigrationGroup :=
  [{ Version := 1, BaseNames := ["init".toList] },
   { Version := 2, BaseNames := ["add_users".toList] }]

/-- A file whose version text is a decimal integer too large for an `int`. -/
def fileTooLarge : Str := "migrations/99999999999999999999_x.up.sql".toList

/-- Output of the history query naming a file in a subdirectory and a file in a sibling
directory whose name begins with `migrations`. -/
def outputElsewhere : Str :=
  "migrations/sub/000001_a.up.sql\nmigrations_old/000001_b.down.sql".toList

/-- A history whose versions come in the order 3, 1, 2, 1. -/
def historyShuffled : List Str :=
  ["migrations/000003_c.up.sql".toList, "migrations/000001_a.up.sql".toList,
   "migrations/000002_b.up.sql".toList, "migrations/000001_d.up.sql".toList]

/-- The groups of `historyShuffled`. -/
def groupsShuffled : List MigrationGroup :=
  [{ Version := 1, BaseNames := ["a".toList, "d".toList] },
   { Version := 2, BaseNames := ["b".toList] },
   { Version := 3, BaseNames := ["c".toList] }]

/-- Four names on version 5 and two on version 9. -/
def groupsAbort : List MigrationGroup :=
  [{ Version := 5,
     BaseNames := ["first".toList, "second".toList, "third".toList, "fourth".toList] },
   { Version := 9, BaseNames := ["ninth".toList, "tenth".toList] }]

/-- A filesystem holding both files of every name of `groupsAbort`, but for `third`, which
has its up file only. -/
def fsAbort : FS :=
  fsOfList
    ["migrations/000005_first.up.sql".toList, "migrations/000005_first.down.sql".toList,
     "migrations/000005_second.up.sql".toList, "migrations/000005_second.down.sql".toList,
     "migrations/000005_third.up.sql".toList,
     "migrations/000005_fourth.up.sql".toList, "migrations/000005_fourth.down.sql".toList,
     "migrations/000009_ninth.up.sql".toList, "migrations/000009_ninth.down.sql".toList,
     "migrations/000009_tenth.up.sql".toList, "migrations/000009_tenth.down.sql".toList]

/-- A filesystem holding both files of `first`, `second` and `ninth`, and only the up file
of `third`. -/
def fsFiveNineHalf : FS :=
  fsOfList
    ["migrations/000005_first.up.sql".toList, "migrations/000005_first.down.sql".toList,
     "migrations/000005_second.up.sql".toList, "migrations/000005_second.down.sql".toList,
     "migrations/000005_third.up.sql".toList,
     "migrations/000009_ninth.up.sql".toList, "migrations/000009_ninth.down.sql".toList]

/-- An up file whose name, without `.up.sql`, ends in `.down.sql`. -/
def fileDownUp : Str := "migrations/000001_a.down.sql.up.sql".toList

/-! ## Lemmas on the map -/

theorem mem_mapSet {m : GroupMap} {k : Int} {g : MigrationGroup} {e : Int × MigrationGroup}
    (h : e ∈ mapSet m k g) : e = (k, g) ∨ e ∈ m := by
  induction m with
  | nil => simpa [mapSet] using h
  | cons a rest ih =>
    obtain ⟨k1, g1⟩ := a
    unfold mapSet at h
    split_ifs at h with hk
    · rcases List.mem_cons.1 h with h | h
      · exact Or.inl h
      · exact Or.inr (List.mem_cons_of_mem _ h)
    · rcases List.mem_cons.1 h with h | h
      · exact Or.inr (h ▸ List.mem_cons_self _ _)
      · rcases ih h with h | h
        · exact Or.inl h
        · exact Or.inr (List.mem_cons_of_mem _ h)

theorem keys_mapSet (m : GroupMap) (k : Int) (g : MigrationGroup) :
    (mapSet m k g).map Prod.fst =
      if k ∈ m.map Prod.fst then m.map Prod.fst else m.map Prod.fst ++ [k] := by
  induction m with
  | nil => simp [mapSet]
  | cons a rest ih =>
    obtain ⟨k1, g1⟩ := a
    unfold mapSet
    by_cases hk : k1 = k
    · subst hk; simp
    · have hk2 : ¬ k = k1 := fun h => hk h.symm
      simp only [hk, if_false, List.map_cons, ih, List.mem_cons, hk2, false_or]
      split_ifs <;> simp

theorem keys_nodup_mapSet {m : GroupMap} (h : (m.map Prod.fst).Nodup) (k : Int)
    (g : MigrationGroup) : ((mapSet m k g).map Prod.fst).Nodup := by
  rw [keys_mapSet]
  split_ifs with hk
  · exact h
  · exact List.Nodup.append h (List.nodup_singleton k) (by simpa using hk)

theorem mapGet_mem {m : GroupMap} {k : Int} {g : MigrationGroup} (h : mapGet m k = some g) :
    (k, g) ∈ m := by
  induction m with
  | nil => simp [mapGet] at h
  | cons a rest ih =>
    obtain ⟨k1, g1⟩ := a
    unfold mapGet at h
    split_ifs at h with hk
    · cases h; subst hk; exact List.mem_cons_self _ _
    · exact List.mem_cons_of_mem _ (ih h)

/-- The names held by the map after one more name has been appended to the group of `k`. -/
theorem names_mapSet (m : GroupMap) (k : Int) (n : Str) :
    ((mapSet m k
        { Version := ((mapGet m k).getD (NewMigrationGroup k)).Version,
          BaseNames := ((mapGet m k).getD (NewMigrationGroup k)).BaseNames ++ [n] }).flatMap
        (fun e => e.2.BaseNames)).Perm
      (m.flatMap (fun e => e.2.BaseNames) ++ [n]) := by
  induction m with
  | nil => simp [mapSet, mapGet, NewMigrationGroup]
  | cons a rest ih =>
    obtain ⟨k1, g1⟩ := a
    by_cases hk : k1 = k
    · subst hk
      simp only [mapSet, mapGet, if_true, Option.getD_some, List.flatMap_cons]
      rw [List.append_assoc, List.append_assoc]
      exact List.Perm.append_left _ List.perm_append_comm
    · simp only [mapSet, mapGet, hk, if_false, List.flatMap_cons]
      rw [List.append_assoc]
      exact List.Perm.append_left _ ih

/-! ## The grouping loop keeps its invariant -/

theorem firstIndex_append_of_mem {a : Str} {l1 : List Str} (l2 : List Str) (h : a ∈ l1) :
    firstIndex a (l1 ++ l2) = firstIndex a l1 := by
  induction l1 with
  | nil => simp at h
  | cons b l ih =>
    simp only [List.cons_append, firstIndex, List.append_eq]
    split_ifs with hb
    · rfl
    · rcases List.mem_cons.1 h with h1 | h1
      · exact absurd h1.symm hb
      · rw [ih h1]

theorem firstIndex_append_of_not_mem {a : Str} {l1 : List Str} (l2 : List Str) (h : a ∉ l1) :
    firstIndex a (l1 ++ l2) = l1.length + firstIndex a l2 := by
  induction l1 with
  | nil => simp
  | cons b l ih =>
    simp only [List.mem_cons, not_or] at h
    have hb : ¬ b = a := fun hc => h.1 hc.symm
    simp only [List.cons_append, firstIndex, hb, if_false, List.append_eq, ih h.2,
      List.length_cons]
    omega

theorem firstIndex_lt_length {a : Str} {l : List Str} (h : a ∈ l) :
    firstIndex a l < l.length := by
  induction l with
  | nil => simp at h
  | cons b l ih =>
    simp only [firstIndex, List.length_cons]
    split_ifs with hb
    · omega
    · rcases List.mem_cons.1 h with h1 | h1
      · exact absurd h1.symm hb
      · have := ih h1; omega

theorem atoi_range {s : Str} {v : Int} (h : atoi s = some v) : minInt ≤ v ∧ v ≤ maxInt := by
  unfold atoi at h
  cases hp : parseSigned s with
  | none => rw [hp] at h; exact absurd h (by simp)
  | some n =>
    rw [hp] at h
    simp only at h
    split_ifs at h with hr
    cases h
    exact hr

theorem groupInv_init : GroupInv { addedBaseNames := [], migrationGroupsMap := [] } [] where
  keys_nodup := by simp
  version_eq := by simp
  in_range := by simp
  added_iff := by simp
  added_nodup := by simp
  names_perm := by simp
  first_file := by simp
  sublist := by simp
  ordered := by simp
  nonempty := by simp

/-- A file whose logical name was already added leaves the state as it is. -/
theorem groupStep_seen {st : GroupState} {f : Str} {v : Int} (hv : parseVersion f = some v)
    (hn : logicalName f ∈ st.addedBaseNames) : groupStep st f = .ok st := by
  unfold parseVersion at hv
  simp [groupStep, hv, hn]

theorem groupStep_inv {st st1 : GroupState} {pre : List Str} {f : Str}
    (inv : GroupInv st pre) (h : groupStep st f = .ok st1) : GroupInv st1 (pre ++ [f]) := by
  unfold groupStep at h
  split at h
  · exact absurd h (by simp)
  · rename_i version hver
    have hmem_old : ∀ a ∈ st.addedBaseNames,
        firstIndex a (List.map logicalName (pre ++ [f])) =
          firstIndex a (List.map logicalName pre) := by
      intro a ha
      rw [List.map_append]
      exact firstIndex_append_of_mem _ ((inv.added_iff a).1 ha)
    have hfind_old : ∀ n m, n ∈ st.addedBaseNames →
        pre.find? (fun f => decide (logicalName f = n)) = some m →
        (pre ++ [f]).find? (fun f => decide (logicalName f = n)) = some m := by
      intro n m _ hm
      rw [List.find?_append, hm]; rfl
    simp only at h
    split_ifs at h with hseen
    · -- the name was seen before: the state does not change
      cases h
      refine { inv with added_iff := ?_, first_file := ?_, ordered := ?_ }
      · intro n
        rw [inv.added_iff n]
        simp only [List.map_append, List.map_cons, List.map_nil, List.mem_append,
          List.mem_singleton]
        constructor
        · exact Or.inl
        · rintro (h | h)
          · exact h
          · rw [h]; exact (inv.added_iff _).1 hseen
      · intro e he n hn
        obtain ⟨m, hm, hv⟩ := inv.first_file e he n hn
        exact ⟨m, hfind_old n m ((inv.sublist e he).subset hn) hm, hv⟩
      · refine inv.ordered.imp_of_mem ?_
        intro a b ha hb hab
        rw [hmem_old a ha, hmem_old b hb]; exact hab
    · -- a new name: it joins the group of its version
      cases h
      have hnew : logicalName f ∉ List.map logicalName pre := fun hc =>
        hseen ((inv.added_iff _).2 hc)
      have hgroup : ∀ e ∈ mapSet st.migrationGroupsMap version
            { Version := ((mapGet st.migrationGroupsMap version).getD
                (NewMigrationGroup version)).Version,
              BaseNames := ((mapGet st.migrationGroupsMap version).getD
                (NewMigrationGroup version)).BaseNames ++ [logicalName f] },
          e ∈ st.migrationGroupsMap ∨
          (e.1 = version ∧ e.2.Version = version ∧
            ((e.2.BaseNames = [logicalName f]) ∨
             (∃ g, (version, g) ∈ st.migrationGroupsMap ∧
                e.2.BaseNames = g.BaseNames ++ [logicalName f]))) := by
        intro e he
        rcases mem_mapSet he with h1 | h1
        · right
          subst h1
          cases hg : mapGet st.migrationGroupsMap version with
          | none => simp [NewMigrationGroup]
          | some g =>
            have hm := mapGet_mem hg
            have := inv.version_eq _ hm
            simp only [Option.getD_some]
            exact ⟨trivial, this, Or.inr ⟨g, hm, rfl⟩⟩
        · exact Or.inl h1
      refine
        { keys_nodup := keys_nodup_mapSet inv.keys_nodup _ _
          version_eq := ?_
          in_range := ?_
          added_iff := ?_
          added_nodup := ?_
          names_perm := ?_
          first_file := ?_
          sublist := ?_
          ordered := ?_
          nonempty := ?_ }
      · intro e he
        rcases hgroup e he with h1 | ⟨h1, h2, _⟩
        · exact inv.version_eq e h1
        · rw [h1, h2]
      · intro e he
        rcases hgroup e he with h1 | ⟨h1, _, _⟩
        · exact inv.in_range e h1
        · rw [h1]; exact atoi_range hver
      · intro n
        simp only [List.mem_append, List.mem_singleton, List.map_append, List.map_cons,
          List.map_nil, inv.added_iff n]
      · exact List.Nodup.append inv.added_nodup (List.nodup_singleton _)
          (by simpa using hseen)
      · exact (names_mapSet _ _ _).trans (List.Perm.append_right _ inv.names_perm)
      · intro e he n hn
        have hnewfile : (pre ++ [f]).find? (fun g => decide (logicalName g = logicalName f))
            = some f := by
          rw [List.find?_append]
          have : pre.find? (fun g => decide (logicalName g = logicalName f)) = none := by
            rw [List.find?_eq_none]
            intro x hx hc
            exact hnew (List.mem_map.2 ⟨x, hx, by simpa using hc⟩)
          rw [this]; simp
        rcases hgroup e he with h1 | ⟨h1, _, h3 | ⟨g, hg, h3⟩⟩
        · obtain ⟨m, hm, hv⟩ := inv.first_file e h1 n hn
          exact ⟨m, hfind_old n m ((inv.sublist e h1).subset hn) hm, hv⟩
        · rw [h3, List.mem_singleton] at hn
          subst hn
          exact ⟨f, hnewfile, by rw [h1]; exact hver⟩
        · rw [h3, List.mem_append, List.mem_singleton] at hn
          rcases hn with hn | hn
          · obtain ⟨m, hm, hv⟩ := inv.first_file _ hg n hn
            exact ⟨m, hfind_old n m ((inv.sublist _ hg).subset hn) hm, by rw [h1]; exact hv⟩
          · subst hn
            exact ⟨f, hnewfile, by rw [h1]; exact hver⟩
      · intro e he
        rcases hgroup e he with h1 | ⟨_, _, h3 | ⟨g, hg, h3⟩⟩
        · exact (inv.sublist e h1).trans (List.sublist_append_left _ _)
        · rw [h3]; exact List.sublist_append_right _ _
        · rw [h3]; exact List.Sublist.append (inv.sublist _ hg) (List.Sublist.refl _)
      · rw [List.pairwise_append]
        refine ⟨?_, List.pairwise_singleton _ _, ?_⟩
        · refine inv.ordered.imp_of_mem ?_
          intro a b ha hb hab
          rw [hmem_old a ha, hmem_old b hb]; exact hab
        · intro a ha b hb
          rw [List.mem_singleton] at hb
          subst hb
          rw [hmem_old a ha, List.map_append, firstIndex_append_of_not_mem _ hnew]
          have := firstIndex_lt_length ((inv.added_iff a).1 ha)
          omega
      · intro e he
        rcases hgroup e he with h1 | ⟨_, _, h3 | ⟨g, hg, h3⟩⟩
        · exact inv.nonempty e h1
        · rw [h3]; simp
        · rw [h3]; simp

theorem groupLoop_inv {ms : List Str} : ∀ {st st1 : GroupState} {pre : List Str},
    GroupInv st pre → groupLoop st ms = .ok st1 → GroupInv st1 (pre ++ ms) := by
  induction ms with
  | nil =>
    intro st st1 pre inv h
    simp only [groupLoop] at h
    cases h
    simpa using inv
  | cons f rest ih =>
    intro st st1 pre inv h
    unfold groupLoop at h
    split at h
    · exact absurd h (by simp)
    · rename_i st2 hst
      have := ih (groupStep_inv inv hst) h
      simpa using this

theorem groupLoop_append (a b : List Str) : ∀ st : GroupState,
    groupLoop st (a ++ b) =
      match groupLoop st a with
      | .error e => .error e
      | .ok st1 => groupLoop st1 b := by
  induction a with
  | nil => intro st; simp [groupLoop]
  | cons f rest ih =>
    intro st
    simp only [List.cons_append, groupLoop]
    cases groupStep st f with
    | error e => rfl
    | ok st1 => exact ih st1

/-- A successful grouping is the sorted map of a loop that ended in a state satisfying the
invariant for the whole input. -/
theorem groupByVersionNumber_ok {migrations : List Str} {groups : List MigrationGroup}
    (h : groupByVersionNumber migrations = .ok groups) :
    ∃ st, GroupInv st migrations ∧ groups = sortGroups st.migrationGroupsMap := by
  unfold groupByVersionNumber at h
  split at h
  · exact absurd h (by simp)
  · rename_i st hst
    refine ⟨st, ?_, ?_⟩
    · simpa using groupLoop_inv groupInv_init hst
    · cases h; rfl

theorem mem_sortGroups {m : GroupMap} {g : MigrationGroup} :
    g ∈ sortGroups m ↔ ∃ e ∈ m, e.2 = g := by
  unfold sortGroups
  rw [List.mem_insertionSort, List.mem_map]

theorem sortGroups_names (m : GroupMap) :
    ((sortGroups m).flatMap MigrationGroup.BaseNames).Perm
      (m.flatMap (fun e => e.2.BaseNames)) := by
  unfold sortGroups
  refine ((List.perm_insertionSort versionLE _).flatMap_right _).trans ?_
  rw [List.flatMap_map]

/-- No logical name occurs twice over the groups returned. -/
theorem groups_names_nodup {migrations : List Str} {groups : List MigrationGroup}
    (h : groupByVersionNumber migrations = .ok groups) :
    (groups.flatMap MigrationGroup.BaseNames).Nodup := by
  obtain ⟨st, inv, rfl⟩ := groupByVersionNumber_ok h
  exact ((sortGroups_names st.migrationGroupsMap).trans inv.names_perm).nodup_iff.2
    inv.added_nodup

theorem groups_in_range {migrations : List Str} {groups : List MigrationGroup}
    (h : groupByVersionNumber migrations = .ok groups) :
    ∀ g ∈ groups, minInt ≤ g.Version ∧ g.Version ≤ maxInt := by
  obtain ⟨st, inv, rfl⟩ := groupByVersionNumber_ok h
  intro g hg
  obtain ⟨e, he, rfl⟩ := mem_sortGroups.1 hg
  rw [inv.version_eq e he]
  exact inv.in_range e he

theorem sortGroups_strict {st : GroupState} {pre : List Str} (inv : GroupInv st pre) :
    (sortGroups st.migrationGroupsMap).Pairwise (fun a b => a.Version < b.Version) := by
  have hs : (sortGroups st.migrationGroupsMap).Pairwise versionLE :=
    List.sorted_insertionSort versionLE _
  have hmap : st.migrationGroupsMap.map (fun e => e.2.Version) =
      st.migrationGroupsMap.map Prod.fst :=
    List.map_congr_left (fun e he => inv.version_eq e he)
  have hnd : ((sortGroups st.migrationGroupsMap).map MigrationGroup.Version).Nodup := by
    have hp : ((sortGroups st.migrationGroupsMap).map MigrationGroup.Version).Perm
        (st.migrationGroupsMap.map Prod.fst) := by
      unfold sortGroups
      refine ((List.perm_insertionSort versionLE _).map _).trans ?_
      rw [List.map_map, ← hmap]
      exact List.Perm.refl _
    exact hp.nodup_iff.2 inv.keys_nodup
  have hne : (sortGroups st.migrationGroupsMap).Pairwise
      (fun a b => a.Version ≠ b.Version) := (List.pairwise_map.1 hnd)
  exact (hs.and hne).imp (fun ⟨h1, h2⟩ => lt_of_le_of_ne h1 h2)

theorem groups_strict {migrations : List Str} {groups : List MigrationGroup}
    (h : groupByVersionNumber migrations = .ok groups) :
    groups.Pairwise (fun a b => a.Version < b.Version) := by
  obtain ⟨st, inv, rfl⟩ := groupByVersionNumber_ok h
  exact sortGroups_strict inv

theorem getLast?_max {groups : List MigrationGroup} {last : MigrationGroup}
    (hs : groups.Pairwise (fun a b => a.Version ≤ b.Version))
    (hl : groups.getLast? = some last) : ∀ g ∈ groups, g.Version ≤ last.Version := by
  intro g hg
  obtain ⟨init, rfl⟩ : ∃ init, groups = init ++ [last] := by
    rcases List.eq_nil_or_concat groups with h | ⟨init, x, h⟩
    · subst h; simp at hl
    · subst h
      rw [List.concat_eq_append] at hl ⊢
      simp at hl
      subst hl
      exact ⟨init, rfl⟩
  rw [List.pairwise_append] at hs
  rcases List.mem_append.1 hg with h | h
  · exact hs.2.2 g h last (List.mem_singleton_self _)
  · rw [List.mem_singleton] at h; rw [h]

/-! ## Formatting and parsing of versions -/

theorem digitChar_spec (k : Nat) (hk : k < 10) :
    isDigit (Nat.digitChar k) = true ∧ digitVal (Nat.digitChar k) = k := by
  interval_cases k <;> decide

theorem parseDigitsFrom_append (x y : Str) : ∀ a : Nat,
    parseDigitsFrom a (x ++ y) = (parseDigitsFrom a x).bind (fun b => parseDigitsFrom b y) := by
  induction x with
  | nil => intro a; simp [parseDigitsFrom]
  | cons c cs ih =>
    intro a
    simp only [List.cons_append, parseDigitsFrom]
    split_ifs
    · exact ih _
    · rfl

/-- The digits written for `n` read back as `n`. -/
theorem natDigitsAux_spec : ∀ (fuel n : Nat) (acc : Str), n < fuel →
    ∃ ds, natDigitsAux fuel n acc = ds ++ acc ∧ ds ≠ [] ∧ (∀ c ∈ ds, isDigit c = true) ∧
      ∀ a, parseDigitsFrom a ds = some (a * 10 ^ ds.length + n) := by
  intro fuel
  induction fuel with
  | zero => intro n acc h; omega
  | succ fuel ih =>
    intro n acc h
    have hd := digitChar_spec (n % 10) (Nat.mod_lt _ (by omega))
    unfold natDigitsAux
    simp only
    split_ifs with h0
    · refine ⟨[Nat.digitChar (n % 10)], rfl, by simp, ?_, ?_⟩
      · intro c hc
        rw [List.mem_singleton] at hc
        rw [hc]; exact hd.1
      · intro a
        simp only [parseDigitsFrom, hd.1, if_true, hd.2, List.length_singleton, pow_one]
        have : n % 10 = n := Nat.mod_eq_of_lt (by omega)
        rw [this, Nat.mul_comm]
    · obtain ⟨ds, h1, h2, h3, h4⟩ :=
        ih (n / 10) (Nat.digitChar (n % 10) :: acc) (by omega)
      refine ⟨ds ++ [Nat.digitChar (n % 10)], ?_, by simp, ?_, ?_⟩
      · rw [h1]; simp
      · intro c hc
        rcases List.mem_append.1 hc with hc | hc
        · exact h3 c hc
        · rw [List.mem_singleton] at hc
          rw [hc]; exact hd.1
      · intro a
        rw [parseDigitsFrom_append, h4 a]
        simp only [Option.bind_some, parseDigitsFrom, hd.1, if_true, hd.2, List.length_append,
          List.length_singleton, pow_succ]
        show some (10 * (a * 10 ^ ds.length + n / 10) + n % 10) = _
        congr 1
        have := Nat.div_add_mod n 10
        rw [← Nat.mul_assoc]
        generalize a * 10 ^ ds.length = X
        omega

theorem natDigits_spec (n : Nat) :
    natDigits n ≠ [] ∧ (∀ c ∈ natDigits n, isDigit c = true) ∧
      parseDigitsFrom 0 (natDigits n) = some n := by
  obtain ⟨ds, h1, h2, h3, h4⟩ := natDigitsAux_spec (n + 1) n [] (by omega)
  unfold natDigits
  rw [h1, List.append_nil]
  exact ⟨h2, h3, by simpa using h4 0⟩

theorem parseDigitsFrom_zeros (k : Nat) (s : Str) :
    parseDigitsFrom 0 (List.replicate k '0' ++ s) = parseDigitsFrom 0 s := by
  induction k with
  | zero => simp
  | succ k ih =>
    have h1 : isDigit '0' = true := by decide
    have h2 : 10 * 0 + digitVal '0' = 0 := by decide
    rw [List.replicate_succ, List.cons_append, parseDigitsFrom, if_pos h1, h2]
    exact ih

theorem padZeros_spec (w n : Nat) :
    padZeros w (natDigits n) ≠ [] ∧ (∀ c ∈ padZeros w (natDigits n), isDigit c = true) ∧
      parseDigits (padZeros w (natDigits n)) = some n := by
  obtain ⟨h1, h2, h3⟩ := natDigits_spec n
  have hne : padZeros w (natDigits n) ≠ [] := by
    unfold padZeros
    intro hc
    exact h1 (List.append_eq_nil.1 hc).2
  refine ⟨hne, ?_, ?_⟩
  · intro c hc
    unfold padZeros at hc
    rcases List.mem_append.1 hc with hc | hc
    · rw [List.eq_of_mem_replicate hc]; decide
    · exact h2 c hc
  · unfold parseDigits
    rw [if_neg hne]
    unfold padZeros
    rw [parseDigitsFrom_zeros, h3]

theorem splitSign_digit (c : Char) (r : Str) (h : isDigit c = true) :
    splitSign (c :: r) = (false, c :: r) := by
  unfold splitSign
  split
  · rename_i heq
    cases heq
    exact absurd h (by decide)
  · rename_i heq
    cases heq
    exact absurd h (by decide)
  · rfl

/-- What `%06d` writes reads back as the number written. -/
theorem parseSigned_fmt06d (v : Int) : parseSigned (fmt06d v) = some v := by
  unfold fmt06d
  split_ifs with hneg
  · obtain ⟨_, _, h3⟩ := padZeros_spec 5 v.natAbs
    have hs : splitSign ('-' :: padZeros 5 (natDigits v.natAbs)) =
        (true, padZeros 5 (natDigits v.natAbs)) := rfl
    unfold parseSigned
    rw [hs]
    simp only [h3, applySign, if_true]
    congr 1
    omega
  · obtain ⟨h1, h2, h3⟩ := padZeros_spec 6 v.toNat
    obtain ⟨c, r, hcr⟩ := List.exists_cons_of_ne_nil h1
    have hs : splitSign (padZeros 6 (natDigits v.toNat)) =
        (false, padZeros 6 (natDigits v.toNat)) := by
      rw [hcr]
      exact splitSign_digit c r (h2 c (by rw [hcr]; exact List.mem_cons_self _ _))
    unfold parseSigned
    rw [hs]
    simp only [h3, applySign]
    congr 1
    simp only [Bool.false_eq_true, if_false]
    omega

theorem fmt06d_injective {v w : Int} (h : fmt06d v = fmt06d w) : v = w := by
  have h1 := parseSigned_fmt06d v
  rw [h, parseSigned_fmt06d w] at h1
  exact (Option.some.inj h1).symm

theorem underscore_not_mem_fmt06d (v : Int) : '_' ∉ fmt06d v := by
  intro hc
  unfold fmt06d at hc
  split_ifs at hc
  · rcases List.mem_cons.1 hc with hc | hc
    · exact absurd hc (by decide)
    · exact absurd ((padZeros_spec 5 v.natAbs).2.1 _ hc) (by decide)
  · exact absurd ((padZeros_spec 6 v.toNat).2.1 _ hc) (by decide)

/-! ## File names -/

theorem suffix_up_ne_down (n m : Str) : n ++ ".up.sql".toList ≠ m ++ ".down.sql".toList := by
  intro h
  have h1 := congrArg List.reverse h
  have hu : ".up.sql".toList = ['.', 'u', 'p', '.', 's', 'q', 'l'] := rfl
  have hd : ".down.sql".toList = ['.', 'd', 'o', 'w', 'n', '.', 's', 'q', 'l'] := rfl
  rw [hu, hd] at h1
  simp at h1

theorem body_eq_iff {v w : Int} {a b : Str} :
    fmt06d v ++ '_' :: a = fmt06d w ++ '_' :: b ↔ v = w ∧ a = b := by
  constructor
  · intro h
    have hsplit : ∀ (x y : Str), '_' ∉ x → '_' ∉ y → ∀ a b : Str,
        x ++ '_' :: a = y ++ '_' :: b → x = y ∧ a = b := by
      intro x
      induction x with
      | nil =>
        intro y _ hy a b h
        cases y with
        | nil => simpa using h
        | cons c y =>
          simp only [List.nil_append, List.cons_append, List.cons.injEq] at h
          exact absurd (h.1 ▸ List.mem_cons_self _ _) hy
      | cons c x ih =>
        intro y hx hy a b h
        cases y with
        | nil =>
          simp only [List.nil_append, List.cons_append, List.cons.injEq] at h
          exact absurd (h.1 ▸ List.mem_cons_self _ _) hx
        | cons d y =>
          simp only [List.cons_append, List.cons.injEq] at h
          obtain ⟨h1, h2⟩ := ih y (fun hc => hx (List.mem_cons_of_mem _ hc))
            (fun hc => hy (List.mem_cons_of_mem _ hc)) a b h.2
          exact ⟨by rw [h.1, h1], h2⟩
    obtain ⟨h1, h2⟩ := hsplit _ _ (underscore_not_mem_fmt06d v) (underscore_not_mem_fmt06d w)
      a b h
    exact ⟨fmt06d_injective h1, h2⟩
  · rintro ⟨rfl, rfl⟩; rfl

theorem upName_eq_iff {path : Str} {v w : Int} {n m : Str} :
    upName path v n = upName path w m ↔ v = w ∧ n = m := by
  unfold upName
  rw [List.append_cancel_left_eq, List.cons.injEq, body_eq_iff, List.append_cancel_right_eq]
  simp

theorem downName_eq_iff {path : Str} {v w : Int} {n m : Str} :
    downName path v n = downName path w m ↔ v = w ∧ n = m := by
  unfold downName
  rw [List.append_cancel_left_eq, List.cons.injEq, body_eq_iff, List.append_cancel_right_eq]
  simp

theorem upName_ne_downName (path : Str) (v w : Int) (n m : Str) :
    upName path v n ≠ downName path w m := by
  unfold upName downName
  rw [Ne, List.append_cancel_left_eq, List.cons.injEq, body_eq_iff]
  rintro ⟨_, _, h⟩
  exact suffix_up_ne_down n m h

theorem isFileOf_inj {path : Str} {v w : Int} {n m p : Str}
    (h1 : isFileOf path v n p) (h2 : isFileOf path w m p) : v = w ∧ n = m := by
  rcases h1 with h1 | h1 <;> rcases h2 with h2 | h2 <;> rw [h1] at h2
  · exact upName_eq_iff.1 h2
  · exact absurd h2 (upName_ne_downName _ _ _ _ _)
  · exact absurd h2.symm (upName_ne_downName _ _ _ _ _)
  · exact downName_eq_iff.1 h2

/-! ## One name of the renaming loop -/

theorem renameName_index (path : Str) (v : Int) (st : RState) (i : Nat) (n : Str) :
    renameName path v st (i + 1) n = renameName path v st 1 n := by
  unfold renameName
  simp

/-- The three ways the body of the loop ends for a name that is not the first of its
group: skipped, fatal on the down file, or both files moved. -/
theorem renameName_cases (path : Str) (v : Int) (st : RState) (n : Str) :
    (st.fs (upName path v n) = none ∧ renameName path v st 1 n = .done st) ∨
    (∃ c, st.fs (upName path v n) = some c ∧ st.fs (downName path v n) = none ∧
      renameName path v st 1 n =
        .fatal (Fatal.renameFailed (downName path v n)
            (downName path (wrapInt (st.highest + 1)) n))
          { fs := moved st.fs (upName path v n) (upName path (wrapInt (st.highest + 1)) n) c,
            highest := wrapInt (st.highest + 1),
            renames := st.renames ++
              [(upName path v n, upName path (wrapInt (st.highest + 1)) n)] }) ∨
    (∃ c d, st.fs (upName path v n) = some c ∧ st.fs (downName path v n) = some d ∧
      renameName path v st 1 n =
        .done
          { fs := moved
              (moved st.fs (upName path v n) (upName path (wrapInt (st.highest + 1)) n) c)
              (downName path v n) (downName path (wrapInt (st.highest + 1)) n) d,
            highest := wrapInt (st.highest + 1),
            renames := st.renames ++
              [(upName path v n, upName path (wrapInt (st.highest + 1)) n),
               (downName path v n, downName path (wrapInt (st.highest + 1)) n)] }) := by
  cases hu : st.fs (upName path v n) with
  | none =>
    left
    refine ⟨rfl, ?_⟩
    unfold renameName
    simp [hu]
  | some c =>
    right
    have hdown : moved st.fs (upName path v n) (upName path (wrapInt (st.highest + 1)) n) c
        (downName path v n) = st.fs (downName path v n) := by
      unfold moved
      rw [if_neg (fun h => upName_ne_downName _ _ _ _ _ h.symm),
        if_neg (fun h => upName_ne_downName _ _ _ _ _ h.symm)]
    cases hd : st.fs (downName path v n) with
    | none =>
      left
      refine ⟨c, rfl, rfl, ?_⟩
      unfold renameName
      simp [hu, rename, hdown, hd]
    | some d =>
      right
      refine ⟨c, d, rfl, rfl, ?_⟩
      unfold renameName
      simp [hu, rename, hdown, hd]

/-! ## The two loops as one loop over the work items -/

theorem runItems_append (path : Str) (a b : List (Int × Str)) : ∀ st : RState,
    runItems path st (a ++ b) =
      match runItems path st a with
      | .done st1 => runItems path st1 b
      | o => o := by
  induction a with
  | nil => intro st; simp [runItems]
  | cons it rest ih =>
    intro st
    simp only [List.cons_append, runItems]
    cases renameName path it.1 st 1 it.2 with
    | done st1 => exact ih st1
    | fatal e st1 => rfl
    | panic => rfl

theorem renameNames_succ (path : Str) (v : Int) (names : List Str) : ∀ (st : RState) (i : Nat),
    renameNames path v st (i + 1) names = runItems path st (names.map (fun n => (v, n))) := by
  induction names with
  | nil => intro st i; simp [renameNames, runItems]
  | cons n rest ih =>
    intro st i
    simp only [renameNames, List.map_cons, runItems, renameName_index]
    cases renameName path v st 1 n with
    | done st1 => exact ih st1 (i + 1)
    | fatal e st1 => rfl
    | panic => rfl

theorem renameNames_zero (path : Str) (v : Int) (st : RState) (names : List Str) :
    renameNames path v st 0 names = runItems path st (names.tail.map (fun n => (v, n))) := by
  cases names with
  | nil => simp [renameNames, runItems]
  | cons n rest =>
    have h0 : renameName path v st 0 n = .done st := by simp [renameName]
    simp only [renameNames, h0, List.tail_cons]
    exact renameNames_succ path v rest st 0

theorem renameGroups_eq (path : Str) (groups : List MigrationGroup) : ∀ st : RState,
    renameGroups path st groups = runItems path st (workItems groups) := by
  induction groups with
  | nil => intro st; simp [renameGroups, workItems, runItems]
  | cons g rest ih =>
    intro st
    have hw : workItems (g :: rest) =
        g.BaseNames.tail.map (fun n => (g.Version, n)) ++ workItems rest := by
      simp [workItems]
    rw [hw, runItems_append]
    simp only [renameGroups, renameNames_zero]
    cases runItems path st (g.BaseNames.tail.map (fun n => (g.Version, n))) with
    | done st1 => exact ih st1
    | fatal e st1 => rfl
    | panic => rfl

theorem renameMigrations_eq {path : Str} {groups : List MigrationGroup} {M : Int}
    (h : initialCounter groups = some M) (fs : FS) :
    renameMigrations path groups fs =
      runItems path { fs := fs, highest := M, renames := [] } (workItems groups) := by
  unfold renameMigrations
  rw [h]
  exact renameGroups_eq path groups _

/-! ## Paths that a run does not touch -/

theorem moved_of_ne {fs : FS} {oldName newName p : Str} {c : Nat} (h1 : p ≠ newName)
    (h2 : p ≠ oldName) : moved fs oldName newName c p = fs p := by
  unfold moved
  rw [if_neg h1, if_neg h2]

/-- A path that is no file of any of the names processed is neither read nor written by
the calls of `os.Rename`, and keeps its content. -/
theorem runItems_frame (path p : Str) : ∀ (items : List (Int × Str)) (st : RState),
    (∀ it ∈ items, ∀ v, p ≠ upName path v it.2 ∧ p ≠ downName path v it.2) →
    (∀ c ∈ (runItems path st items).calls, c ∈ st.renames ∨ (c.1 ≠ p ∧ c.2 ≠ p)) ∧
    (∀ st1, (runItems path st items).state? = some st1 → st1.fs p = st.fs p) := by
  intro items
  induction items with
  | nil =>
    intro st _
    simp only [runItems, Outcome.calls, Outcome.state?]
    exact ⟨fun c hc => Or.inl hc, fun st1 h => by cases h; rfl⟩
  | cons it rest ih =>
    intro st hp
    have hit := hp it (List.mem_cons_self _ _)
    have hrest : ∀ it ∈ rest, ∀ v, p ≠ upName path v it.2 ∧ p ≠ downName path v it.2 :=
      fun x hx => hp x (List.mem_cons_of_mem _ hx)
    rcases renameName_cases path it.1 st it.2 with ⟨_, hr⟩ | ⟨c, _, _, hr⟩ | ⟨c, d, _, _, hr⟩
    · simp only [runItems, hr]
      exact ih st hrest
    · simp only [runItems, hr, Outcome.calls, Outcome.state?]
      constructor
      · intro x hx
        simp only [List.mem_append, List.mem_singleton] at hx
        rcases hx with (hx | hx) | hx
        · exact Or.inl hx
        · right; rw [hx]; exact ⟨Ne.symm (hit _).1, Ne.symm (hit _).1⟩
        · right; rw [hx]; exact ⟨Ne.symm (hit _).2, Ne.symm (hit _).2⟩
      · intro st1 h
        cases h
        exact moved_of_ne (hit _).1 (hit _).1
    · simp only [runItems, hr]
      obtain ⟨h1, h2⟩ := ih
        { fs := moved
            (moved st.fs (upName path it.1 it.2)
              (upName path (wrapInt (st.highest + 1)) it.2) c)
            (downName path it.1 it.2) (downName path (wrapInt (st.highest + 1)) it.2) d,
          highest := wrapInt (st.highest + 1),
          renames := st.renames ++
            [(upName path it.1 it.2, upName path (wrapInt (st.highest + 1)) it.2),
             (downName path it.1 it.2, downName path (wrapInt (st.highest + 1)) it.2)] }
        hrest
      constructor
      · intro x hx
        rcases h1 x hx with hx | hx
        · simp only [List.mem_append, List.mem_cons, List.mem_singleton, List.mem_nil_iff,
            or_false] at hx
          rcases hx with hx | hx | hx
          · exact Or.inl hx
          · right; rw [hx]; exact ⟨Ne.symm (hit _).1, Ne.symm (hit _).1⟩
          · right; rw [hx]; exact ⟨Ne.symm (hit _).2, Ne.symm (hit _).2⟩
        · exact Or.inr hx
      · intro st1 h
        rw [h2 st1 h]
        simp only
        rw [moved_of_ne (hit _).2 (hit _).2, moved_of_ne (hit _).1 (hit _).1]

/-! ## Names of the groups and work items -/

theorem workItems_name_mem {groups : List MigrationGroup} {it : Int × Str}
    (h : it ∈ workItems groups) :
    ∃ g ∈ groups, it.1 = g.Version ∧ it.2 ∈ g.BaseNames.tail := by
  unfold workItems at h
  rw [List.mem_flatMap] at h
  obtain ⟨g, hg, hit⟩ := h
  rw [List.mem_map] at hit
  obtain ⟨n, hn, rfl⟩ := hit
  exact ⟨g, hg, rfl, hn⟩

/-- When no name occurs twice over the groups, the first name of a group is not a work
item. -/
theorem head_not_workItem : ∀ {groups : List MigrationGroup},
    (groups.flatMap MigrationGroup.BaseNames).Nodup →
    ∀ g ∈ groups, ∀ n0, g.BaseNames.head? = some n0 →
    ∀ it ∈ workItems groups, it.2 ≠ n0 := by
  intro groups hnd g hg n0 hn0 it hit
  obtain ⟨g1, hg1, _, hmem⟩ := workItems_name_mem hit
  intro heq
  rw [heq] at hmem
  -- `n0` is the head of `g` and lies in the tail of `g1`
  obtain ⟨t, ht⟩ : ∃ t, g.BaseNames = n0 :: t := by
    cases hb : g.BaseNames with
    | nil => rw [hb] at hn0; simp at hn0
    | cons a t =>
      rw [hb] at hn0
      simp only [List.head?_cons, Option.some.injEq] at hn0
      exact ⟨t, by rw [hn0]⟩
  rw [List.nodup_flatMap] at hnd
  by_cases hgg : g = g1
  · subst hgg
    have := hnd.1 g hg
    rw [ht] at this hmem
    exact (List.nodup_cons.1 this).1 hmem
  · have hdis : ∀ a b : MigrationGroup, a ∈ groups → b ∈ groups → a ≠ b →
        List.Disjoint a.BaseNames b.BaseNames := by
      intro a b ha hb hab
      have hsym : Symmetric fun a b : MigrationGroup =>
          List.Disjoint a.BaseNames b.BaseNames := fun x y hxy => hxy.symm
      exact hnd.2.forall hsym ha hb hab
    have hd := hdis g g1 hg hg1 hgg
    exact hd (by rw [ht]; exact List.mem_cons_self _ _) (List.mem_of_mem_tail hmem)

/-! ## The calls made by a run that ends well -/

theorem wrapInt_add (a b : Int) : wrapInt (wrapInt a + b) = wrapInt (a + b) := by
  unfold wrapInt
  have h : (a - minInt) % 2 ^ 64 + minInt + b - minInt = (a - minInt) % 2 ^ 64 + b := by ring
  rw [h, Int.emod_add_emod]
  congr 2
  ring

theorem wrapInt_of_range {x : Int} (h1 : minInt ≤ x) (h2 : x ≤ maxInt) : wrapInt x = x := by
  unfold wrapInt
  unfold minInt maxInt at *
  rw [Int.emod_eq_of_lt (by omega) (by omega)]
  omega

theorem runItems_calls (path : Str) : ∀ (items : List (Int × Str)) (st st1 : RState),
    runItems path st items = .done st1 →
    ∃ renamed, renamed.Sublist items ∧
      st1.renames = st.renames ++ pairCalls path st.highest renamed := by
  intro items
  induction items with
  | nil =>
    intro st st1 h
    simp only [runItems] at h
    cases h
    exact ⟨[], List.Sublist.refl _, by simp [pairCalls]⟩
  | cons it rest ih =>
    intro st st1 h
    rcases renameName_cases path it.1 st it.2 with ⟨_, hr⟩ | ⟨c, _, _, hr⟩ | ⟨c, d, _, _, hr⟩
    · simp only [runItems, hr] at h
      obtain ⟨renamed, h1, h2⟩ := ih st st1 h
      exact ⟨renamed, h1.cons _, h2⟩
    · simp only [runItems, hr] at h
      exact absurd h (by simp)
    · simp only [runItems, hr] at h
      obtain ⟨renamed, h1, h2⟩ := ih _ st1 h
      refine ⟨it :: renamed, h1.cons₂ _, ?_⟩
      rw [h2]; simp [pairCalls]

/-- The `k`-th pair of calls, counting from 0, moves its two files to the counter
advanced `k + 1` times. -/
theorem pairCalls_get (path : Str) : ∀ (renamed : List (Int × Str)) (h : Int) (k : Nat)
    (it : Int × Str), renamed[k]? = some it →
    (pairCalls path h renamed)[2 * k]? =
      some (upName path it.1 it.2, upName path (wrapInt (h + (k + 1))) it.2) ∧
    (pairCalls path h renamed)[2 * k + 1]? =
      some (downName path it.1 it.2, downName path (wrapInt (h + (k + 1))) it.2) := by
  intro renamed
  induction renamed with
  | nil => intro h k it hk; simp at hk
  | cons a rest ih =>
    intro h k it hk
    cases k with
    | zero =>
      simp only [List.getElem?_cons_zero, Option.some.injEq] at hk
      subst hk
      simp [pairCalls]
    | succ k =>
      simp only [List.getElem?_cons_succ] at hk
      obtain ⟨h1, h2⟩ := ih (wrapInt (h + 1)) k it hk
      have e : wrapInt (wrapInt (h + 1) + ((k : Int) + 1)) =
          wrapInt (h + (((k + 1 : Nat) : Int) + 1)) := by
        rw [wrapInt_add]; congr 1; push_cast; ring
      rw [e] at h1 h2
      have i1 : 2 * (k + 1) = (2 * k) + 1 + 1 := by ring
      have i2 : 2 * (k + 1) + 1 = (2 * k + 1) + 1 + 1 := by ring
      constructor
      · rw [i1]; simp only [pairCalls, List.getElem?_cons_succ]; exact h1
      · rw [i2]; simp only [pairCalls, List.getElem?_cons_succ]; exact h2

theorem pairCalls_length (path : Str) : ∀ (renamed : List (Int × Str)) (h : Int),
    (pairCalls path h renamed).length = 2 * renamed.length := by
  intro renamed
  induction renamed with
  | nil => intro h; simp [pairCalls]
  | cons a rest ih =>
    intro h
    simp only [pairCalls, List.length_cons, ih]
    ring

/-- The successful calls of any run: those of the pairs renamed, followed, when the run was
fatal, by the move of the up file of the name it stopped at. -/
theorem runItems_calls_any (path : Str) : ∀ (items : List (Int × Str)) (st st1 : RState),
    (runItems path st items).state? = some st1 →
    ∃ renamed : List (Int × Str), renamed.Sublist items ∧
      (st1.renames = st.renames ++ pairCalls path st.highest renamed ∨
       ((∃ err, runItems path st items = .fatal err st1) ∧
        ∃ it ∈ items, st1.renames = st.renames ++ pairCalls path st.highest renamed ++
          [(upName path it.1 it.2,
            upName path (wrapInt (st.highest + ((renamed.length : Int) + 1))) it.2)])) := by
  intro items
  induction items with
  | nil =>
    intro st st1 h
    simp only [runItems, Outcome.state?, Option.some.injEq] at h
    subst h
    exact ⟨[], List.Sublist.refl _, Or.inl (by simp [pairCalls])⟩
  | cons it rest ih =>
    intro st st1 h
    rcases renameName_cases path it.1 st it.2 with ⟨_, hr⟩ | ⟨c, _, _, hr⟩ | ⟨c, d, _, _, hr⟩
    · simp only [runItems, hr] at h ⊢
      obtain ⟨renamed, h1, h2⟩ := ih st st1 h
      refine ⟨renamed, h1.cons _, ?_⟩
      rcases h2 with h2 | ⟨h2, x, hx, h3⟩
      · exact Or.inl h2
      · exact Or.inr ⟨h2, x, List.mem_cons_of_mem _ hx, h3⟩
    · simp only [runItems, hr, Outcome.state?, Option.some.injEq] at h ⊢
      subst h
      refine ⟨[], List.nil_sublist _, Or.inr ⟨⟨_, rfl⟩, it, List.mem_cons_self _ _, ?_⟩⟩
      simp [pairCalls]
    · simp only [runItems, hr] at h ⊢
      obtain ⟨renamed, h1, h2⟩ := ih _ st1 h
      refine ⟨it :: renamed, h1.cons₂ _, ?_⟩
      rcases h2 with h2 | ⟨h2, x, hx, h3⟩
      · left
        rw [h2]; simp [pairCalls]
      · right
        refine ⟨h2, x, List.mem_cons_of_mem _ hx, ?_⟩
        rw [h3]
        have e : wrapInt (wrapInt (st.highest + 1) + ((renamed.length : Int) + 1)) =
            wrapInt (st.highest + (((it :: renamed).length : Int) + 1)) := by
          rw [wrapInt_add]; congr 1; push_cast [List.length_cons]; ring
        simp only [pairCalls, e]
        simp

/-! ## Runs whose counter stays above every version -/

theorem moved_ne_none_iff {fs : FS} {oldName newName p : Str} {c : Nat} :
    moved fs oldName newName c p ≠ none ↔ p = newName ∨ (p ≠ oldName ∧ fs p ≠ none) := by
  unfold moved
  by_cases h1 : p = newName
  · simp [h1]
  · by_cases h2 : p = oldName
    · simp [h1, h2]
    · simp [h1, h2]

theorem moved_eq_none_iff {fs : FS} {oldName newName p : Str} {c : Nat} :
    moved fs oldName newName c p = none ↔ p ≠ newName ∧ (p = oldName ∨ fs p = none) := by
  have h := (@moved_ne_none_iff fs oldName newName p c).not
  rw [not_not] at h
  rw [h]
  constructor
  · intro hn
    refine ⟨fun hc => hn (Or.inl hc), ?_⟩
    by_cases h2 : p = oldName
    · exact Or.inl h2
    · right
      by_contra hc
      exact hn (Or.inr ⟨h2, hc⟩)
  · rintro ⟨h1, h2⟩ (hc | ⟨hc1, hc2⟩)
    · exact h1 hc
    · rcases h2 with h2 | h2
      · exact hc1 h2
      · exact hc2 h2

theorem runItems_all_absent (path : Str) : ∀ (items : List (Int × Str)) (st : RState),
    (∀ it ∈ items, st.fs (upName path it.1 it.2) = none) →
    runItems path st items = .done st := by
  intro items
  induction items with
  | nil => intro st _; rfl
  | cons it rest ih =>
    intro st h
    have hu := h it (List.mem_cons_self _ _)
    rcases renameName_cases path it.1 st it.2 with ⟨_, hr⟩ | ⟨c, hc, _⟩ | ⟨c, d, hc, _⟩
    · simp only [runItems, hr]
      exact ih st (fun x hx => h x (List.mem_cons_of_mem _ hx))
    · rw [hu] at hc; exact absurd hc (by simp)
    · rw [hu] at hc; exact absurd hc (by simp)

/-- When every version is at most `M`, the counter starts at `M` or above and cannot
overflow, a run that ends well leaves no up file under the version and name of a name it
has processed, and creates no up file under a version up to `M`. -/
theorem runItems_sources_absent (path : Str) (M : Int) (hmin : minInt ≤ M) :
    ∀ (items : List (Int × Str)) (st st1 : RState),
    (∀ it ∈ items, it.1 ≤ M) → M ≤ st.highest → st.highest + items.length ≤ maxInt →
    runItems path st items = .done st1 →
    (∀ q : Int × Str, q.1 ≤ M → st.fs (upName path q.1 q.2) = none →
      st1.fs (upName path q.1 q.2) = none) ∧
    (∀ it ∈ items, st1.fs (upName path it.1 it.2) = none) := by
  intro items
  induction items with
  | nil =>
    intro st st1 _ _ _ h
    simp only [runItems] at h
    cases h
    exact ⟨fun q _ hq => hq, fun it hit => absurd hit (List.not_mem_nil _)⟩
  | cons it rest ih =>
    intro st st1 hle hM hfit h
    have hrest : ∀ x ∈ rest, x.1 ≤ M := fun x hx => hle x (List.mem_cons_of_mem _ hx)
    have hit := hle it (List.mem_cons_self _ _)
    simp only [List.length_cons, Nat.cast_add, Nat.cast_one] at hfit
    rcases renameName_cases path it.1 st it.2 with ⟨hu, hr⟩ | ⟨c, _, _, hr⟩ | ⟨c, d, _, _, hr⟩
    · simp only [runItems, hr] at h
      obtain ⟨h1, h2⟩ := ih st st1 hrest hM (by omega) h
      refine ⟨h1, ?_⟩
      intro x hx
      rcases List.mem_cons.1 hx with hx | hx
      · rw [hx]; exact h1 it hit hu
      · exact h2 x hx
    · simp only [runItems, hr] at h
      exact absurd h (by simp)
    · have hw : wrapInt (st.highest + 1) = st.highest + 1 :=
        wrapInt_of_range (by omega) (by omega)
      rw [hw] at hr
      simp only [runItems, hr] at h
      obtain ⟨h1, h2⟩ := ih _ st1 hrest (by simp only; omega) (by simp only; omega) h
      have hkey : ∀ q : Int × Str, q.1 ≤ M →
          (st.fs (upName path q.1 q.2) = none ∨ q = it) →
          (moved (moved st.fs (upName path it.1 it.2) (upName path (st.highest + 1) it.2) c)
            (downName path it.1 it.2) (downName path (st.highest + 1) it.2) d)
            (upName path q.1 q.2) = none := by
        intro q hq hor
        rw [moved_eq_none_iff]
        refine ⟨upName_ne_downName _ _ _ _ _, Or.inr ?_⟩
        rw [moved_eq_none_iff]
        refine ⟨?_, ?_⟩
        · intro hc
          have := (upName_eq_iff.1 hc).1
          omega
        · rcases hor with hor | hor
          · exact Or.inr hor
          · left; rw [hor]
      refine ⟨fun q hq hqn => h1 q hq (hkey q hq (Or.inl hqn)), ?_⟩
      intro x hx
      rcases List.mem_cons.1 hx with hx | hx
      · rw [hx]; exact h1 it hit (hkey it hit (Or.inr rfl))
      · exact h2 x hx

/-! ## The files on disk after a run -/

theorem mem_workItems {groups : List MigrationGroup} {g : MigrationGroup} {n : Str}
    (hg : g ∈ groups) (hn : n ∈ g.BaseNames.tail) : (g.Version, n) ∈ workItems groups := by
  unfold workItems
  rw [List.mem_flatMap]
  exact ⟨g, hg, List.mem_map.2 ⟨n, hn, rfl⟩⟩

/-- Every file on disk after a run that ends well is of a kind `C` that the run began
with, or a file of a renamed pair; the renamed pairs sit under pairwise distinct versions
above `M`. The run starts on a disk whose files are of kind `C`, files of pairs renamed
earlier, or files of the names still to be processed, none of these with a down file but
no up file. -/
theorem runItems_classified (path : Str) (M : Int) (hmin : minInt ≤ M) (C : Str → Prop) :
    ∀ (post : List (Int × Str)) (st st1 : RState) (assigned : List (Int × Str)),
    (∀ it ∈ post, it.1 ≤ M) → M ≤ st.highest → st.highest + post.length ≤ maxInt →
    (∀ a ∈ assigned, M < a.1 ∧ a.1 ≤ st.highest) →
    assigned.Pairwise (fun a b => a.1 ≠ b.1) →
    (∀ p, st.fs p ≠ none →
      C p ∨ (∃ a ∈ assigned, isFileOf path a.1 a.2 p) ∨
        (∃ it ∈ post, isFileOf path it.1 it.2 p)) →
    (∀ it ∈ post, st.fs (downName path it.1 it.2) ≠ none →
      st.fs (upName path it.1 it.2) ≠ none) →
    runItems path st post = .done st1 →
    ∃ assigned1 : List (Int × Str), (∀ a ∈ assigned1, M < a.1) ∧
      assigned1.Pairwise (fun a b => a.1 ≠ b.1) ∧
      ∀ p, st1.fs p ≠ none → C p ∨ ∃ a ∈ assigned1, isFileOf path a.1 a.2 p := by
  intro post
  induction post with
  | nil =>
    intro st st1 assigned _ _ _ has hpw hcl _ h
    simp only [runItems] at h
    cases h
    refine ⟨assigned, fun a ha => (has a ha).1, hpw, ?_⟩
    intro p hp
    rcases hcl p hp with h1 | h1 | ⟨it, hit, _⟩
    · exact Or.inl h1
    · exact Or.inr h1
    · exact absurd hit (List.not_mem_nil _)
  | cons it rest ih =>
    intro st st1 assigned hle hM hfit has hpw hcl hpair h
    have hrest : ∀ x ∈ rest, x.1 ≤ M := fun x hx => hle x (List.mem_cons_of_mem _ hx)
    have hit := hle it (List.mem_cons_self _ _)
    simp only [List.length_cons, Nat.cast_add, Nat.cast_one] at hfit
    rcases renameName_cases path it.1 st it.2 with ⟨hu, hr⟩ | ⟨c, _, _, hr⟩ | ⟨c, d, hu, hd, hr⟩
    · -- the name is passed over: it has no file on disk
      simp only [runItems, hr] at h
      have hdn : st.fs (downName path it.1 it.2) = none := by
        by_contra hc
        exact hpair it (List.mem_cons_self _ _) hc hu
      refine ih st st1 assigned hrest hM (by omega) has hpw ?_
        (fun x hx => hpair x (List.mem_cons_of_mem _ hx)) h
      intro p hp
      rcases hcl p hp with h1 | h1 | ⟨x, hx, hxp⟩
      · exact Or.inl h1
      · exact Or.inr (Or.inl h1)
      · rcases List.mem_cons.1 hx with hx | hx
        · rw [hx] at hxp
          rcases hxp with hxp | hxp
          · rw [hxp] at hp; exact absurd hu hp
          · rw [hxp] at hp; exact absurd hdn hp
        · exact Or.inr (Or.inr ⟨x, hx, hxp⟩)
    · simp only [runItems, hr] at h
      exact absurd h (by simp)
    · -- both files move to the next version
      have hw : wrapInt (st.highest + 1) = st.highest + 1 :=
        wrapInt_of_range (by omega) (by omega)
      rw [hw] at hr
      simp only [runItems, hr] at h
      refine ih _ st1 ((st.highest + 1, it.2) :: assigned) hrest (by simp only; omega)
        (by simp only; omega) ?_ ?_ ?_ ?_ h
      · intro a ha
        rcases List.mem_cons.1 ha with ha | ha
        · rw [ha]; simp only; omega
        · have := has a ha; simp only; omega
      · rw [List.pairwise_cons]
        refine ⟨?_, hpw⟩
        intro a ha
        have := has a ha
        simp only
        omega
      · intro p hp
        simp only at hp
        rw [moved_ne_none_iff] at hp
        rcases hp with hp | ⟨hp1, hp⟩
        · exact Or.inr (Or.inl ⟨_, List.mem_cons_self _ _, Or.inr hp⟩)
        · rw [moved_ne_none_iff] at hp
          rcases hp with hp | ⟨hp2, hp⟩
          · exact Or.inr (Or.inl ⟨_, List.mem_cons_self _ _, Or.inl hp⟩)
          · rcases hcl p hp with h1 | ⟨a, ha, hap⟩ | ⟨x, hx, hxp⟩
            · exact Or.inl h1
            · exact Or.inr (Or.inl ⟨a, List.mem_cons_of_mem _ ha, hap⟩)
            · rcases List.mem_cons.1 hx with hx | hx
              · rw [hx] at hxp
                rcases hxp with hxp | hxp
                · exact absurd hxp hp2
                · exact absurd hxp hp1
              · exact Or.inr (Or.inr ⟨x, hx, hxp⟩)
      · intro x hx hdx
        simp only at hdx ⊢
        have hxM := hrest x hx
        rw [moved_ne_none_iff] at hdx
        rcases hdx with hdx | ⟨hd1, hdx⟩
        · have := (downName_eq_iff.1 hdx).1
          omega
        · rw [moved_ne_none_iff] at hdx
          rcases hdx with hdx | ⟨_, hdx⟩
          · exact absurd hdx.symm (upName_ne_downName _ _ _ _ _)
          · have hux := hpair x (List.mem_cons_of_mem _ hx) hdx
            rw [moved_ne_none_iff]
            refine Or.inr ⟨upName_ne_downName _ _ _ _ _, ?_⟩
            rw [moved_ne_none_iff]
            refine Or.inr ⟨?_, hux⟩
            intro hc
            obtain ⟨e1, e2⟩ := upName_eq_iff.1 hc
            exact hd1 (by rw [e1, e2])

/-! ## The grouper: claims -/

/-- C4: when `groupByVersionNumber` succeeds, every logical name of the input occurs exactly
once over all returned groups (the names of the groups, put together, have no repetition
and are exactly the logical names of the input files), and a name sits in the group whose
version is the one parsed from the first input file with that logical name. -/
theorem groupByVersionNumber_names (migrations : List Str) (groups : List MigrationGroup)
    (h : groupByVersionNumber migrations = .ok groups) :
    (groups.flatMap MigrationGroup.BaseNames).Nodup ∧
    (∀ n, n ∈ groups.flatMap MigrationGroup.BaseNames ↔
      ∃ f ∈ migrations, logicalName f = n) ∧
    (∀ g ∈ groups, ∀ n ∈ g.BaseNames,
      ∃ f, migrations.find? (fun x => decide (logicalName x = n)) = some f ∧
        parseVersion f = some g.Version) := by
  obtain ⟨st, inv, rfl⟩ := groupByVersionNumber_ok h
  have hp := (sortGroups_names st.migrationGroupsMap).trans inv.names_perm
  refine ⟨hp.nodup_iff.2 inv.added_nodup, ?_, ?_⟩
  · intro n
    rw [hp.mem_iff, inv.added_iff n, List.mem_map]
  · intro g hg n hn
    obtain ⟨e, he, rfl⟩ := mem_sortGroups.1 hg
    obtain ⟨f, hf, hv⟩ := inv.first_file e he n hn
    exact ⟨f, hf, by rw [inv.version_eq e he]; exact hv⟩

/-- Witness of C4 on the history where `init` and `add_users` claim version 1. -/
theorem groupByVersionNumber_names_witness :
    groupByVersionNumber historyInitUsers = .ok groupsInitUsers ∧
    (groupsInitUsers.flatMap MigrationGroup.BaseNames).Nodup ∧
    (∀ n, n ∈ groupsInitUsers.flatMap MigrationGroup.BaseNames ↔
      ∃ f ∈ historyInitUsers, logicalName f = n) ∧
    (∀ g ∈ groupsInitUsers, ∀ n ∈ g.BaseNames,
      ∃ f, historyInitUsers.find? (fun x => decide (logicalName x = n)) = some f ∧
        parseVersion f = some g.Version) :=
  ⟨by decide, groupByVersionNumber_names historyInitUsers groupsInitUsers (by decide)⟩

/-- C5: when `groupByVersionNumber` succeeds, the groups are strictly ascending by
version, so no two share a version; the last group holds the greatest version, and that
version is the counter with which `renameMigrations` starts its loops. -/
theorem groupByVersionNumber_sorted (migrations : List Str) (groups : List MigrationGroup)
    (h : groupByVersionNumber migrations = .ok groups) :
    groups.Pairwise (fun a b => a.Version < b.Version) ∧
    ∀ last, groups.getLast? = some last →
      (∀ g ∈ groups, g.Version ≤ last.Version) ∧
      ∀ path fs, renameMigrations path groups fs =
        renameGroups path { fs := fs, highest := last.Version, renames := [] } groups := by
  obtain ⟨st, inv, rfl⟩ := groupByVersionNumber_ok h
  have hs := sortGroups_strict inv
  refine ⟨hs, ?_⟩
  intro last hl
  refine ⟨getLast?_max (hs.imp (fun h => le_of_lt h)) hl, ?_⟩
  intro path fs
  simp [renameMigrations, initialCounter, hl]

/-- Witness of C5 on a history whose versions come in the order 3, 1, 2, 1: the map
receives its keys in the order 3, 1, 2 and the groups come out in the order 1, 2, 3, the
last one holding the greatest version 3. -/
theorem groupByVersionNumber_sorted_witness :
    groupByVersionNumber historyShuffled = .ok groupsShuffled ∧
    (∃ st, groupLoop { addedBaseNames := [], migrationGroupsMap := [] } historyShuffled =
        .ok st ∧ st.migrationGroupsMap.map Prod.fst = [3, 1, 2]) ∧
    groupsShuffled.map MigrationGroup.Version = [1, 2, 3] ∧
    groupsShuffled.Pairwise (fun a b => a.Version < b.Version) ∧
    ∀ last, groupsShuffled.getLast? = some last →
      (∀ g ∈ groupsShuffled, g.Version ≤ last.Version) ∧
      ∀ path fs, renameMigrations path groupsShuffled fs =
        renameGroups path { fs := fs, highest := last.Version, renames := [] }
          groupsShuffled :=
  ⟨by decide, ⟨_, rfl, by decide⟩, by decide,
    groupByVersionNumber_sorted historyShuffled groupsShuffled (by decide)⟩

/-- C6: when `groupByVersionNumber` succeeds, the names of every returned group are in the
order of their first occurrences in the input: a name that precedes another in a group has
its first file earlier in the input. -/
theorem groupByVersionNumber_order (migrations : List Str) (groups : List MigrationGroup)
    (h : groupByVersionNumber migrations = .ok groups) :
    ∀ g ∈ groups, g.BaseNames.Pairwise (fun a b =>
      firstIndex a (migrations.map logicalName) < firstIndex b (migrations.map logicalName)) := by
  obtain ⟨st, inv, rfl⟩ := groupByVersionNumber_ok h
  intro g hg
  obtain ⟨e, he, rfl⟩ := mem_sortGroups.1 hg
  exact inv.ordered.sublist (inv.sublist e he)

/-- Witness of C6 on the history where `init` and `add_users` claim version 1. -/
theorem groupByVersionNumber_order_witness :
    groupByVersionNumber historyInitUsers = .ok groupsInitUsers ∧
    ∀ g ∈ groupsInitUsers, g.BaseNames.Pairwise (fun a b =>
      firstIndex a (historyInitUsers.map logicalName) <
        firstIndex b (historyInitUsers.map logicalName)) :=
  ⟨by decide, groupByVersionNumber_order historyInitUsers groupsInitUsers (by decide)⟩

/-! ## Partner files: lemmas -/

theorem takeWhile_sep (d : Char) (rest : Str) : ∀ xs : Str, d ∉ xs →
    (xs ++ d :: rest).takeWhile (fun c => c != d) = xs := by
  intro xs
  induction xs with
  | nil => intro _; simp
  | cons a t ih =>
    intro h
    simp only [List.mem_cons, not_or] at h
    have ha : (a != d) = true := by simpa using fun hc => h.1 hc.symm
    rw [List.cons_append, List.takeWhile_cons, ha]
    simp only [if_true]
    rw [ih h.2]

theorem dropWhile_sep (d : Char) (rest : Str) : ∀ xs : Str, d ∉ xs →
    (xs ++ d :: rest).dropWhile (fun c => c != d) = d :: rest := by
  intro xs
  induction xs with
  | nil => intro _; simp
  | cons a t ih =>
    intro h
    simp only [List.mem_cons, not_or] at h
    have ha : (a != d) = true := by simpa using fun hc => h.1 hc.symm
    rw [List.cons_append, List.dropWhile_cons, ha]
    simp only [if_true]
    exact ih h.2

theorem takeWhile_all (d : Char) : ∀ xs : Str, d ∉ xs →
    xs.takeWhile (fun c => c != d) = xs := by
  intro xs h
  rw [List.takeWhile_eq_self_iff]
  intro c hc
  simpa using fun e : c = d => h (e ▸ hc)

/-- The base name of a path that ends in a text without separator: the last element of
what comes before, followed by that text. -/
theorem base_append (x suf : Str) (hne : suf ≠ []) (hs : '/' ∉ suf) :
    base (x ++ suf) = x.rtakeWhile (fun c => c != '/') ++ suf := by
  obtain ⟨init, last, hlast⟩ : ∃ init last, suf = init ++ [last] := by
    rcases List.eq_nil_or_concat suf with h | ⟨init, last, h⟩
    · exact absurd h hne
    · exact ⟨init, last, by rw [h, List.concat_eq_append]⟩
  have hl : last ≠ '/' := by
    intro hc
    apply hs
    rw [hlast, hc]
    simp
  have hdrop : (x ++ suf).rdropWhile (fun c => c == '/') = x ++ suf := by
    have e : x ++ suf = (x ++ init) ++ [last] := by rw [hlast]; simp
    rw [e]
    exact List.rdropWhile_concat_neg _ _ _ (by simpa using hl)
  have htake : (x ++ suf).rtakeWhile (fun c => c != '/') =
      x.rtakeWhile (fun c => c != '/') ++ suf := by
    unfold List.rtakeWhile
    rw [List.reverse_append, List.takeWhile_append_of_pos (by
      intro c hc
      simpa using fun e : c = '/' => hs (List.mem_reverse.1 (e ▸ hc))),
      List.reverse_append, List.reverse_reverse]
  have hne2 : x ++ suf ≠ [] := by
    intro hc
    exact hne (List.append_eq_nil.1 hc).2
  unfold base
  rw [if_neg hne2]
  simp only [hdrop, if_neg hne2, htake]

theorem parseDigitsFrom_digits : ∀ (l : Str) (a n : Nat), parseDigitsFrom a l = some n →
    ∀ c ∈ l, isDigit c = true := by
  intro l
  induction l with
  | nil => intro a n _ c hc; exact absurd hc (List.not_mem_nil _)
  | cons d t ih =>
    intro a n h c hc
    unfold parseDigitsFrom at h
    split_ifs at h with hd
    rcases List.mem_cons.1 hc with hc | hc
    · rw [hc]; exact hd
    · exact ih _ n h c hc

theorem splitSign_mem (s : Str) (c : Char) (hc : c ∈ s) :
    c = '-' ∨ c = '+' ∨ c ∈ (splitSign s).2 := by
  unfold splitSign
  split
  · rcases List.mem_cons.1 hc with h | h
    · exact Or.inl h
    · exact Or.inr (Or.inr h)
  · rcases List.mem_cons.1 hc with h | h
    · exact Or.inr (Or.inl h)
    · exact Or.inr (Or.inr h)
  · exact Or.inr (Or.inr hc)

/-- A text accepted by `strconv.Atoi` holds no dot. -/
theorem atoi_no_dot {s : Str} {v : Int} (h : atoi s = some v) : '.' ∉ s := by
  intro hc
  unfold atoi parseSigned at h
  cases hp : parseDigits (splitSign s).2 with
  | none => rw [hp] at h; exact absurd h (by simp)
  | some n =>
    unfold parseDigits at hp
    split_ifs at hp
    rcases splitSign_mem s '.' hc with h1 | h1 | h1
    · exact absurd h1 (by decide)
    · exact absurd h1 (by decide)
    · exact absurd (parseDigitsFrom_digits _ _ _ hp _ h1) (by decide)

theorem hasSuffix_split {f suf : Str} (h : hasSuffix f suf = true) :
    f = trimSuffix f suf ++ suf := by
  have h1 := h
  unfold hasSuffix at h1
  rw [List.isSuffixOf_iff_suffix] at h1
  obtain ⟨t, rfl⟩ := h1
  unfold trimSuffix
  rw [if_pos h]
  simp

theorem trimSuffix_append (x suf : Str) : trimSuffix (x ++ suf) suf = x := by
  unfold trimSuffix hasSuffix
  rw [if_pos (by simp)]
  simp

theorem trimSuffix_of_not {s suf : Str} (h : hasSuffix s suf = false) :
    trimSuffix s suf = s := by
  unfold trimSuffix
  rw [h]
  simp

theorem up_not_suffix_of_down (x : Str) :
    hasSuffix (x ++ ".down.sql".toList) ".up.sql".toList = false := by
  unfold hasSuffix
  rw [Bool.eq_false_iff, Ne, List.isSuffixOf_iff_suffix]
  rintro ⟨t, ht⟩
  exact suffix_up_ne_down t x ht

/-- The partner of an up file has the logical name of the up file, unless the name
without `.up.sql` ends in `.down.sql`. -/
theorem logicalName_partner (x : Str) (h : hasSuffix x ".down.sql".toList = false) :
    logicalName (x ++ ".down.sql".toList) = logicalName (x ++ ".up.sql".toList) := by
  have hb : hasSuffix (x.rtakeWhile (fun c => c != '/')) ".down.sql".toList = false := by
    unfold hasSuffix at h ⊢
    rw [Bool.eq_false_iff, Ne, List.isSuffixOf_iff_suffix] at h ⊢
    exact fun hc => h (hc.trans (List.rtakeWhile_suffix _ _))
  unfold logicalName
  rw [base_append x _ (by decide) (by decide), base_append x _ (by decide) (by decide),
    trimSuffix_of_not (up_not_suffix_of_down _), trimSuffix_append, trimSuffix_append,
    trimSuffix_of_not hb]

/-- The partner of an up file whose version parses has the same version. -/
theorem parseVersion_partner (x : Str) (v : Int)
    (h : parseVersion (x ++ ".up.sql".toList) = some v) :
    parseVersion (x ++ ".down.sql".toList) = some v := by
  unfold parseVersion versionStr splitHead at h ⊢
  rw [base_append x _ (by decide) (by decide)] at h ⊢
  by_cases hu : '_' ∈ x.rtakeWhile (fun c => c != '/')
  · have hsplit : ∃ c1 c2, x.rtakeWhile (fun c => c != '/') = c1 ++ '_' :: c2 ∧ '_' ∉ c1 := by
      have := List.takeWhile_append_dropWhile (fun c => c != '_')
        (x.rtakeWhile (fun c => c != '/'))
      refine ⟨(x.rtakeWhile (fun c => c != '/')).takeWhile (fun c => c != '_'),
        ((x.rtakeWhile (fun c => c != '/')).dropWhile (fun c => c != '_')).tail, ?_, ?_⟩
      · have hd : (x.rtakeWhile (fun c => c != '/')).dropWhile (fun c => c != '_') ≠ [] := by
          intro hc
          rw [List.dropWhile_eq_nil_iff] at hc
          have := hc '_' hu
          simp at this
        obtain ⟨d, t, hdt⟩ := List.exists_cons_of_ne_nil hd
        have hd0 : d = '_' := by
          have h0 := List.head_dropWhile_not (fun c => c != '_')
            (x.rtakeWhile (fun c => c != '/')) hd
          simp only [hdt, List.head_cons] at h0
          simpa using h0
        rw [hd0] at hdt
        rw [hdt, List.tail_cons, ← hdt]
        exact this.symm
      · intro hc
        have := List.mem_takeWhile_imp hc
        simp at this
    obtain ⟨c1, c2, hc, hc1⟩ := hsplit
    rw [hc] at h ⊢
    rw [List.append_assoc, List.cons_append, takeWhile_sep '_' _ c1 hc1] at h ⊢
    exact h
  · exfalso
    have hall : '_' ∉ x.rtakeWhile (fun c => c != '/') ++ ".up.sql".toList := by
      intro hc
      rcases List.mem_append.1 hc with hc | hc
      · exact hu hc
      · exact absurd hc (by decide)
    rw [takeWhile_all '_' _ hall] at h
    exact atoi_no_dot h (List.mem_append_right _ (by decide))

theorem groupStep_added {st st1 : GroupState} {f : Str} (h : groupStep st f = .ok st1) :
    logicalName f ∈ st1.addedBaseNames := by
  unfold groupStep at h
  split at h
  · exact absurd h (by simp)
  · simp only at h
    split_ifs at h with hseen
    · cases h; exact hseen
    · cases h; simp

/-- Adding the partners changes no step of the loop. -/
theorem groupLoop_partners (ms : List Str)
    (hms : ∀ m ∈ ms, hasSuffix m ".up.sql".toList = true →
      hasSuffix (trimSuffix m ".up.sql".toList) ".down.sql".toList = false) :
    ∀ st : GroupState, groupLoop st (withDownPartners ms) = groupLoop st ms := by
  induction ms with
  | nil => intro st; rfl
  | cons f rest ih =>
    intro st
    have hrest := ih (fun m hm => hms m (List.mem_cons_of_mem _ hm))
    unfold withDownPartners
    by_cases hf : hasSuffix f ".up.sql".toList = true
    · rw [if_pos hf]
      simp only [groupLoop]
      cases hstep : groupStep st f with
      | error e => rfl
      | ok st1 =>
        simp only
        have hsplit := hasSuffix_split hf
        have hx := hms f (List.mem_cons_self _ _) hf
        have hv : ∃ v, parseVersion f = some v := by
          unfold groupStep at hstep
          unfold parseVersion
          cases ha : atoi (versionStr f) with
          | none => rw [ha] at hstep; exact absurd hstep (by simp)
          | some v => exact ⟨v, rfl⟩
        obtain ⟨v, hv⟩ := hv
        have hv2 : parseVersion (trimSuffix f ".up.sql".toList ++ ".down.sql".toList) =
            some v := by
          apply parseVersion_partner
          rw [← hsplit]; exact hv
        have hn2 : logicalName (trimSuffix f ".up.sql".toList ++ ".down.sql".toList) ∈
            st1.addedBaseNames := by
          rw [logicalName_partner _ hx, ← hsplit]
          exact groupStep_added hstep
        rw [groupStep_seen hv2 hn2]
        exact hrest st1
    · rw [if_neg hf]
      simp only [groupLoop]
      cases groupStep st f with
      | error e => rfl
      | ok st1 => exact hrest st1

/-- C7, amended: a file whose version text parses and whose logical name is that of a file
earlier in the input does not change the result of `groupByVersionNumber`, whatever its
version and direction. In particular adding the `.down.sql` partner after each `.up.sql`
file does not change the result, provided that no `.up.sql` file has a name that, without
that suffix, ends in `.down.sql`. -/
theorem groupByVersionNumber_skip_seen (xs ys : List Str) (f : Str) (v : Int)
    (ms : List Str)
    (hv : parseVersion f = some v) (hn : ∃ x ∈ xs, logicalName x = logicalName f)
    (hms : ∀ m ∈ ms, hasSuffix m ".up.sql".toList = true →
      hasSuffix (trimSuffix m ".up.sql".toList) ".down.sql".toList = false) :
    groupByVersionNumber (xs ++ [f] ++ ys) = groupByVersionNumber (xs ++ ys) ∧
    groupByVersionNumber (withDownPartners ms) = groupByVersionNumber ms := by
  constructor
  · unfold groupByVersionNumber
    rw [List.append_assoc, groupLoop_append xs ([f] ++ ys), groupLoop_append xs ys]
    cases hx : groupLoop { addedBaseNames := [], migrationGroupsMap := [] } xs with
    | error e => rfl
    | ok st =>
      have inv : GroupInv st xs := by simpa using groupLoop_inv groupInv_init hx
      have hseen : logicalName f ∈ st.addedBaseNames := by
        obtain ⟨x, hx1, hx2⟩ := hn
        exact (inv.added_iff _).2 (List.mem_map.2 ⟨x, hx1, hx2⟩)
      simp only [List.singleton_append, groupLoop, groupStep_seen hv hseen]
      rfl
  · unfold groupByVersionNumber
    rw [groupLoop_partners ms hms]

/-- Witness of C7 as amended: the down file of `init`, under another version, after the up
file of `init` changes nothing; and adding the two partners to the up files of `init` and
`add_users` gives the groups of the up files. -/
theorem groupByVersionNumber_skip_seen_witness :
    parseVersion "migrations/000007_init.down.sql".toList = some 7 ∧
    (∃ x ∈ ["migrations/000001_init.up.sql".toList],
      logicalName x = logicalName "migrations/000007_init.down.sql".toList) ∧
    withDownPartners ["migrations/000001_init.up.sql".toList,
        "migrations/000001_add_users.up.sql".toList] = historyInitUsers ∧
    groupByVersionNumber historyInitUsers = .ok groupsInitUsers ∧
    (groupByVersionNumber (["migrations/000001_init.up.sql".toList] ++
        ["migrations/000007_init.down.sql".toList] ++
        ["migrations/000001_add_users.up.sql".toList]) =
      groupByVersionNumber (["migrations/000001_init.up.sql".toList] ++
        ["migrations/000001_add_users.up.sql".toList]) ∧
    groupByVersionNumber (withDownPartners ["migrations/000001_init.up.sql".toList,
        "migrations/000001_add_users.up.sql".toList]) =
      groupByVersionNumber ["migrations/000001_init.up.sql".toList,
        "migrations/000001_add_users.up.sql".toList]) :=
  ⟨by decide, by decide, by decide, by decide,
    groupByVersionNumber_skip_seen _ _ _ 7 _ (by decide) (by decide) (by decide)⟩

/-- Counterexample to C7 as stated: the up file `000001_a.down.sql.up.sql` has the logical
name `a`, its `.down.sql` partner has the logical name `a.down.sql`, and adding the
partner after it changes the groups from `a` alone to `a` and `a.down.sql`. -/
theorem groupByVersionNumber_skip_seen_counterexample :
    hasSuffix fileDownUp ".up.sql".toList = true ∧
    withDownPartners [fileDownUp] =
      [fileDownUp, "migrations/000001_a.down.sql.down.sql".toList] ∧
    groupByVersionNumber [fileDownUp] =
      .ok [{ Version := 1, BaseNames := ["a".toList] }] ∧
    groupByVersionNumber (withDownPartners [fileDownUp]) =
      .ok [{ Version := 1, BaseNames := ["a".toList, "a.down.sql".toList] }] ∧
    groupByVersionNumber (withDownPartners [fileDownUp]) ≠
      groupByVersionNumber [fileDownUp] := by
  refine ⟨by decide, by decide, by decide, by decide, by decide⟩

/-! ## The renumberer: claims -/

theorem initialCounter_some {groups : List MigrationGroup} {M : Int}
    (h : initialCounter groups = some M) :
    ∃ last, groups.getLast? = some last ∧ last.Version = M := by
  unfold initialCounter at h
  cases hl : groups.getLast? with
  | none => rw [hl] at h; simp at h
  | some last =>
    rw [hl] at h
    simp only [Option.map_some', Option.some.injEq] at h
    exact ⟨last, rfl, h⟩

theorem initialCounter_of_mem {groups : List MigrationGroup} {g : MigrationGroup}
    (h : g ∈ groups) : ∃ M, initialCounter groups = some M := by
  unfold initialCounter
  cases hl : groups.getLast? with
  | none =>
    rw [List.getLast?_eq_none_iff] at hl
    subst hl
    simp at h
  | some last => exact ⟨last.Version, rfl⟩

/-- C1, amended: take the groups of a history accepted by `groupByVersionNumber` and a disk
on which every file is the up or the down file of a logical name of the history under the
version of its group, that is the version the name was first seen with, on which no such
name has its down file without its up file, and let the counter be unable to overflow
(the greatest version plus the number of names that are not the first of their group is
at most the greatest `int`). Then after a run of `renameMigrations` that ends well no two
files on disk that are files of distinct logical names carry the same version. -/
theorem renameMigrations_no_collision (path : Str) (history : List Str)
    (groups : List MigrationGroup) (fs : FS) (st : RState) (M : Int)
    (hg : groupByVersionNumber history = .ok groups)
    (hdisk : ∀ p, fs p ≠ none →
      ∃ g ∈ groups, ∃ n ∈ g.BaseNames, isFileOf path g.Version n p)
    (hpair : ∀ g ∈ groups, ∀ n ∈ g.BaseNames,
      fs (downName path g.Version n) ≠ none → fs (upName path g.Version n) ≠ none)
    (hM : initialCounter groups = some M)
    (hfit : M + (workItems groups).length ≤ maxInt)
    (hrun : renameMigrations path groups fs = .done st) :
    ∀ p q v n m, st.fs p ≠ none → st.fs q ≠ none →
      isFileOf path v n p → isFileOf path v m q → n = m := by
  obtain ⟨last, hl, hlv⟩ := initialCounter_some hM
  have hstrict := groups_strict hg
  have hmax : ∀ g ∈ groups, g.Version ≤ M := fun g hgm =>
    hlv ▸ getLast?_max (hstrict.imp (fun h => le_of_lt h)) hl g hgm
  have hmin : minInt ≤ M := by
    have := (groups_in_range hg last (List.mem_of_mem_getLast? hl)).1
    rw [hlv] at this
    exact this
  have hle : ∀ it ∈ workItems groups, it.1 ≤ M := by
    intro it hit
    obtain ⟨g, hgm, hv, _⟩ := workItems_name_mem hit
    rw [hv]; exact hmax g hgm
  rw [renameMigrations_eq hM] at hrun
  obtain ⟨assigned, ha1, ha2, hcl⟩ := runItems_classified path M hmin
    (fun p => ∃ g ∈ groups, ∃ n0, g.BaseNames.head? = some n0 ∧ isFileOf path g.Version n0 p)
    (workItems groups) _ st [] hle (le_refl M) hfit (by simp) List.Pairwise.nil
    (by
      intro p hp
      obtain ⟨g, hgm, n, hn, hf⟩ := hdisk p hp
      cases hb : g.BaseNames with
      | nil => rw [hb] at hn; exact absurd hn (List.not_mem_nil _)
      | cons n0 t =>
        rw [hb] at hn
        rcases List.mem_cons.1 hn with hn | hn
        · left
          exact ⟨g, hgm, n0, by rw [hb]; rfl, hn ▸ hf⟩
        · right; right
          exact ⟨(g.Version, n), mem_workItems hgm (by rw [hb]; exact hn), hf⟩)
    (by
      intro it hit
      obtain ⟨g, hgm, hv, hn⟩ := workItems_name_mem hit
      rw [hv]
      exact hpair g hgm it.2 (List.mem_of_mem_tail hn))
    hrun
  have hgroups : ∀ a ∈ groups, ∀ b ∈ groups, a.Version = b.Version → a = b := by
    intro a ha b hb hab
    by_contra hne
    have hsym : Symmetric fun a b : MigrationGroup => a.Version ≠ b.Version :=
      fun x y hxy => hxy.symm
    exact (hstrict.imp (fun h => ne_of_lt h)).forall hsym ha hb hne hab
  have hassigned : ∀ a ∈ assigned, ∀ b ∈ assigned, a.1 = b.1 → a = b := by
    intro a ha b hb hab
    by_contra hne
    have hsym : Symmetric fun a b : Int × Str => a.1 ≠ b.1 := fun x y hxy => hxy.symm
    exact ha2.forall hsym ha hb hne hab
  intro p q v n m hp hq hpf hqf
  rcases hcl p hp with ⟨g, hgm, n0, hn0, hf⟩ | ⟨a, ha, hf⟩
  · obtain ⟨e1, e2⟩ := isFileOf_inj hpf hf
    rcases hcl q hq with ⟨g1, hgm1, n1, hn1, hf1⟩ | ⟨b, hb, hf1⟩
    · obtain ⟨e3, e4⟩ := isFileOf_inj hqf hf1
      have := hgroups g hgm g1 hgm1 (by rw [← e1, ← e3])
      subst this
      rw [hn0] at hn1
      rw [e2, e4]
      exact Option.some.inj hn1
    · obtain ⟨e3, _⟩ := isFileOf_inj hqf hf1
      have h1 := hmax g hgm
      have h2 := ha1 b hb
      omega
  · obtain ⟨e1, e2⟩ := isFileOf_inj hpf hf
    rcases hcl q hq with ⟨g1, hgm1, n1, hn1, hf1⟩ | ⟨b, hb, hf1⟩
    · obtain ⟨e3, _⟩ := isFileOf_inj hqf hf1
      have h1 := hmax g1 hgm1
      have h2 := ha1 a ha
      omega
    · obtain ⟨e3, e4⟩ := isFileOf_inj hqf hf1
      have := hassigned a ha b hb (by rw [← e1, ← e3])
      rw [e2, e4, this]

set_option maxRecDepth 100000 in
/-- Witness of C1 as amended: `init` and `add_users` both on disk under version 1. -/
theorem renameMigrations_no_collision_witness :
    groupByVersionNumber historyInitUsers = .ok groupsInitUsers ∧
    (∀ p, fsInitUsers p ≠ none →
      ∃ g ∈ groupsInitUsers, ∃ n ∈ g.BaseNames, isFileOf dirMigrations g.Version n p) ∧
    (∀ g ∈ groupsInitUsers, ∀ n ∈ g.BaseNames,
      fsInitUsers (downName dirMigrations g.Version n) ≠ none →
        fsInitUsers (upName dirMigrations g.Version n) ≠ none) ∧
    ∃ st, renameMigrations dirMigrations groupsInitUsers fsInitUsers = .done st ∧
      ∀ p q v n m, st.fs p ≠ none → st.fs q ≠ none →
        isFileOf dirMigrations v n p → isFileOf dirMigrations v m q → n = m := by
  have hdisk : ∀ p, fsInitUsers p ≠ none →
      ∃ g ∈ groupsInitUsers, ∃ n ∈ g.BaseNames, isFileOf dirMigrations g.Version n p := by
    intro p hp
    have hmem : p ∈ historyInitUsers := by
      by_contra hc
      exact hp (by simp [fsInitUsers, fsOfList, hc])
    simp only [historyInitUsers, List.mem_cons, List.mem_singleton, List.mem_nil_iff,
      or_false] at hmem
    refine ⟨{ Version := 1, BaseNames := ["init".toList, "add_users".toList] },
      by decide, ?_⟩
    rcases hmem with h | h | h | h
    · exact ⟨"init".toList, by decide, Or.inl (by rw [h]; decide)⟩
    · exact ⟨"init".toList, by decide, Or.inr (by rw [h]; decide)⟩
    · exact ⟨"add_users".toList, by decide, Or.inl (by rw [h]; decide)⟩
    · exact ⟨"add_users".toList, by decide, Or.inr (by rw [h]; decide)⟩
  have hpair : ∀ g ∈ groupsInitUsers, ∀ n ∈ g.BaseNames,
      fsInitUsers (downName dirMigrations g.Version n) ≠ none →
        fsInitUsers (upName dirMigrations g.Version n) ≠ none := by decide
  refine ⟨by decide, hdisk, hpair, _, rfl, ?_⟩
  exact renameMigrations_no_collision dirMigrations historyInitUsers groupsInitUsers
    fsInitUsers _ 1 (by decide) hdisk hpair (by decide) (by decide) rfl

set_option maxRecDepth 100000 in
/-- Counterexample to C1 as stated, in three runs that end well on a disk whose files all
appear in the history. With `add_users` on disk under version 2, where an earlier run put
it, and first seen under version 1, it is passed over and still shares version 2 with
`other`. With only the down file of `add_users` on disk, it is passed over and still
shares version 1 with `init`. With the greatest `int` as greatest version, `b` moves to
the least `int`, the version of `a`. -/
theorem renameMigrations_no_collision_counterexample :
    (groupByVersionNumber historyRenumbered = .ok groupsRenumbered ∧
      (∀ p, fsRenumbered p ≠ none → p ∈ historyRenumbered) ∧
      ∃ st, renameMigrations dirMigrations groupsRenumbered fsRenumbered = .done st ∧
        st.fs "migrations/000002_add_users.up.sql".toList ≠ none ∧
        st.fs "migrations/000002_other.up.sql".toList ≠ none ∧
        parseVersion "migrations/000002_add_users.up.sql".toList = some 2 ∧
        parseVersion "migrations/000002_other.up.sql".toList = some 2 ∧
        logicalName "migrations/000002_add_users.up.sql".toList = "add_users".toList ∧
        logicalName "migrations/000002_other.up.sql".toList = "other".toList) ∧
    (groupByVersionNumber historyInitUsers = .ok groupsInitUsers ∧
      (∀ p, fsDownOnly p ≠ none → p ∈ historyInitUsers) ∧
      ∃ st, renameMigrations dirMigrations groupsInitUsers fsDownOnly = .done st ∧
        st.fs "migrations/000001_init.up.sql".toList ≠ none ∧
        st.fs "migrations/000001_add_users.down.sql".toList ≠ none ∧
        parseVersion "migrations/000001_init.up.sql".toList = some 1 ∧
        parseVersion "migrations/000001_add_users.down.sql".toList = some 1 ∧
        logicalName "migrations/000001_init.up.sql".toList = "init".toList ∧
        logicalName "migrations/000001_add_users.down.sql".toList = "add_users".toList) ∧
    (groupByVersionNumber historyOverflow = .ok groupsOverflow ∧
      ∃ st, renameMigrations dirMigrations groupsOverflow (fsOfList historyOverflow) =
          .done st ∧
        st.fs "migrations/-9223372036854775808_a.up.sql".toList ≠ none ∧
        st.fs "migrations/-9223372036854775808_b.up.sql".toList ≠ none ∧
        parseVersion "migrations/-9223372036854775808_a.up.sql".toList =
          some (-9223372036854775808) ∧
        parseVersion "migrations/-9223372036854775808_b.up.sql".toList =
          some (-9223372036854775808) ∧
        logicalName "migrations/-9223372036854775808_a.up.sql".toList = "a".toList ∧
        logicalName "migrations/-9223372036854775808_b.up.sql".toList = "b".toList) := by
  have hsub : ∀ (files hist : List Str), (∀ f ∈ files, f ∈ hist) →
      ∀ p, fsOfList files p ≠ none → p ∈ hist := by
    intro files hist h p hp
    by_cases hm : p ∈ files
    · exact h p hm
    · exact absurd (by simp [fsOfList, hm]) hp
  refine ⟨⟨by decide, hsub _ _ (by decide), _, rfl, ?_⟩,
    ⟨by decide, hsub _ _ (by decide), _, rfl, ?_⟩, ⟨by decide, _, rfl, ?_⟩⟩
  · decide
  · decide
  · decide

/-- C2: the canonical holder is never renamed. For the groups of a history accepted by
`groupByVersionNumber` and any filesystem, no call of `os.Rename` made by
`renameMigrations` has the up or the down file of the first name of a group as its source
or as its destination, and that path holds after the run what it held before: the file
exists after the run exactly when it existed before. -/
theorem canonical_never_renamed (path : Str) (history : List Str)
    (groups : List MigrationGroup) (fs : FS)
    (hg : groupByVersionNumber history = .ok groups) :
    ∀ g ∈ groups, ∀ n0, g.BaseNames.head? = some n0 →
    ∀ p, isFileOf path g.Version n0 p →
      (∀ c ∈ (renameMigrations path groups fs).calls, c.1 ≠ p ∧ c.2 ≠ p) ∧
      (∀ st, (renameMigrations path groups fs).state? = some st → st.fs p = fs p) := by
  intro g hgm n0 hn0 p hp
  obtain ⟨M, hM⟩ := initialCounter_of_mem hgm
  have hnd := groups_names_nodup hg
  have hfree : ∀ it ∈ workItems groups, ∀ v,
      p ≠ upName path v it.2 ∧ p ≠ downName path v it.2 := by
    intro it hit v
    have hne := head_not_workItem hnd g hgm n0 hn0 it hit
    constructor
    · intro hc
      exact hne (isFileOf_inj (Or.inl hc) hp).2
    · intro hc
      exact hne (isFileOf_inj (Or.inr hc) hp).2
  rw [renameMigrations_eq hM]
  obtain ⟨h1, h2⟩ := runItems_frame path p (workItems groups)
    { fs := fs, highest := M, renames := [] } hfree
  refine ⟨?_, h2⟩
  intro c hc
  rcases h1 c hc with h | h
  · simp at h
  · exact h

/-- Witness of C2: with `init` and `add_users` on version 1, both files of `init` are
left alone. -/
theorem canonical_never_renamed_witness :
    groupByVersionNumber historyInitUsers = .ok groupsInitUsers ∧
    ∀ g ∈ groupsInitUsers, ∀ n0, g.BaseNames.head? = some n0 →
    ∀ p, isFileOf dirMigrations g.Version n0 p →
      (∀ c ∈ (renameMigrations dirMigrations groupsInitUsers fsInitUsers).calls,
        c.1 ≠ p ∧ c.2 ≠ p) ∧
      (∀ st, (renameMigrations dirMigrations groupsInitUsers fsInitUsers).state? = some st →
        st.fs p = fsInitUsers p) :=
  ⟨by decide,
    canonical_never_renamed dirMigrations historyInitUsers groupsInitUsers fsInitUsers
      (by decide)⟩

/-- C3, amended: for a non-empty group list sorted ascending by version, `M` the version of
its last group, every group's version is at most `M`, and the successful calls of
`os.Rename` of a run, whether it ends well or with a fatal error, are those of a list of
renamed pairs taken in processing order, followed in a fatal run by the move of one more
up file: the `k`-th renamed pair (here counted from 0, so `k + 1` in the count from 1) has
its up file and then its down file moved to the same logical name and direction under the
counter `M + (k + 1)` reduced to a 64-bit `int`. As long as `M + (k + 1)` is at most the
greatest `int`, that is `M + (k + 1)` itself, greater than the version of every group. -/
theorem renameMigrations_assigns (path : Str) (groups : List MigrationGroup) (fs : FS)
    (st : RState) (M : Int)
    (hs : groups.Pairwise (fun a b => a.Version ≤ b.Version))
    (hM : initialCounter groups = some M)
    (h : (renameMigrations path groups fs).state? = some st) :
    (∀ g ∈ groups, g.Version ≤ M) ∧
    ∃ renamed : List (Int × Str), renamed.Sublist (workItems groups) ∧
      (st.renames.length = 2 * renamed.length ∨
        (st.renames.length = 2 * renamed.length + 1 ∧
          (∃ err, renameMigrations path groups fs = .fatal err st) ∧
          ∃ it ∈ workItems groups, st.renames[2 * renamed.length]? =
            some (upName path it.1 it.2,
              upName path (wrapInt (M + ((renamed.length : Int) + 1))) it.2))) ∧
      ∀ (k : Nat) (it : Int × Str), renamed[k]? = some it →
        st.renames[2 * k]? =
          some (upName path it.1 it.2, upName path (wrapInt (M + (k + 1))) it.2) ∧
        st.renames[2 * k + 1]? =
          some (downName path it.1 it.2, downName path (wrapInt (M + (k + 1))) it.2) ∧
        (minInt ≤ M → M + (k + 1) ≤ maxInt →
          wrapInt (M + (k + 1)) = M + (k + 1) ∧
          ∀ g ∈ groups, g.Version < wrapInt (M + (k + 1))) := by
  obtain ⟨last, hl, hlv⟩ := initialCounter_some hM
  have hle : ∀ g ∈ groups, g.Version ≤ M := fun g hg => hlv ▸ getLast?_max hs hl g hg
  refine ⟨hle, ?_⟩
  rw [renameMigrations_eq hM] at h ⊢
  obtain ⟨renamed, h1, h2⟩ := runItems_calls_any path _ _ _ h
  simp only [List.nil_append] at h2
  have hlen := pairCalls_length path renamed M
  refine ⟨renamed, h1, ?_, ?_⟩
  · rcases h2 with h2 | ⟨herr, it, hit, h2⟩
    · left; rw [h2, hlen]
    · right
      refine ⟨by rw [h2]; simp [hlen], herr, it, hit, ?_⟩
      rw [h2, List.getElem?_append_right (by rw [hlen]), hlen]
      simp
  · intro k it hk
    have hk2 : k < renamed.length := by
      by_contra hc
      rw [List.getElem?_eq_none (by omega)] at hk
      exact absurd hk (by simp)
    obtain ⟨h3, h4⟩ := pairCalls_get path renamed M k it hk
    have hpre : ∀ i, i < 2 * renamed.length → st.renames[i]? = (pairCalls path M renamed)[i]? := by
      intro i hi
      rcases h2 with h2 | ⟨_, _, _, h2⟩
      · rw [h2]
      · rw [h2, List.getElem?_append_left (by rw [hlen]; exact hi)]
    rw [hpre _ (by omega), hpre _ (by omega)]
    refine ⟨h3, h4, ?_⟩
    intro hmin hmax
    have hw : wrapInt (M + (k + 1)) = M + (k + 1) := wrapInt_of_range (by omega) hmax
    refine ⟨hw, ?_⟩
    intro g hg
    have := hle g hg
    rw [hw]
    omega

set_option maxRecDepth 100000 in
/-- Witness of C3 as amended, on two runs over three names on version 5 with the greatest
version 9. With every file on disk the run ends well and the second and the third name
receive the versions 10 and 11. With the down file of the third name missing the run is
fatal after `second` has moved to version 10 and the up file of `third` to version 11. -/
theorem renameMigrations_assigns_witness :
    (∃ st, renameMigrations dirMigrations groupsFiveNine fsFiveNine = .done st ∧
      st.renames =
        [("migrations/000005_second.up.sql".toList, "migrations/000010_second.up.sql".toList),
         ("migrations/000005_second.down.sql".toList,
          "migrations/000010_second.down.sql".toList),
         ("migrations/000005_third.up.sql".toList, "migrations/000011_third.up.sql".toList),
         ("migrations/000005_third.down.sql".toList,
          "migrations/000011_third.down.sql".toList)] ∧
      ((∀ g ∈ groupsFiveNine, g.Version ≤ 9) ∧
      ∃ renamed : List (Int × Str), renamed.Sublist (workItems groupsFiveNine) ∧
        (st.renames.length = 2 * renamed.length ∨
          (st.renames.length = 2 * renamed.length + 1 ∧
            (∃ err, renameMigrations dirMigrations groupsFiveNine fsFiveNine =
              .fatal err st) ∧
            ∃ it ∈ workItems groupsFiveNine, st.renames[2 * renamed.length]? =
              some (upName dirMigrations it.1 it.2,
                upName dirMigrations (wrapInt (9 + ((renamed.length : Int) + 1))) it.2))) ∧
        ∀ (k : Nat) (it : Int × Str), renamed[k]? = some it →
          st.renames[2 * k]? =
            some (upName dirMigrations it.1 it.2,
              upName dirMigrations (wrapInt (9 + (k + 1))) it.2) ∧
          st.renames[2 * k + 1]? =
            some (downName dirMigrations it.1 it.2,
              downName dirMigrations (wrapInt (9 + (k + 1))) it.2) ∧
          (minInt ≤ 9 → (9 : Int) + (k + 1) ≤ maxInt →
            wrapInt (9 + (k + 1)) = 9 + (k + 1) ∧
            ∀ g ∈ groupsFiveNine, g.Version < wrapInt (9 + (k + 1))))) ∧
    (∃ err st, renameMigrations dirMigrations groupsFiveNine fsFiveNineHalf =
        .fatal err st ∧
      st.renames =
        [("migrations/000005_second.up.sql".toList, "migrations/000010_second.up.sql".toList),
         ("migrations/000005_second.down.sql".toList,
          "migrations/000010_second.down.sql".toList),
         ("migrations/000005_third.up.sql".toList, "migrations/000011_third.up.sql".toList)] ∧
      ((∀ g ∈ groupsFiveNine, g.Version ≤ 9) ∧
      ∃ renamed : List (Int × Str), renamed.Sublist (workItems groupsFiveNine) ∧
        (st.renames.length = 2 * renamed.length ∨
          (st.renames.length = 2 * renamed.length + 1 ∧
            (∃ err, renameMigrations dirMigrations groupsFiveNine fsFiveNineHalf =
              .fatal err st) ∧
            ∃ it ∈ workItems groupsFiveNine, st.renames[2 * renamed.length]? =
              some (upName dirMigrations it.1 it.2,
                upName dirMigrations (wrapInt (9 + ((renamed.length : Int) + 1))) it.2))) ∧
        ∀ (k : Nat) (it : Int × Str), renamed[k]? = some it →
          st.renames[2 * k]? =
            some (upName dirMigrations it.1 it.2,
              upName dirMigrations (wrapInt (9 + (k + 1))) it.2) ∧
          st.renames[2 * k + 1]? =
            some (downName dirMigrations it.1 it.2,
              downName dirMigrations (wrapInt (9 + (k + 1))) it.2) ∧
          (minInt ≤ 9 → (9 : Int) + (k + 1) ≤ maxInt →
            wrapInt (9 + (k + 1)) = 9 + (k + 1) ∧
            ∀ g ∈ groupsFiveNine, g.Version < wrapInt (9 + (k + 1))))) := by
  constructor
  · refine ⟨_, rfl, ?_, ?_⟩
    · decide
    · exact renameMigrations_assigns dirMigrations groupsFiveNine fsFiveNine _ 9
        (by decide) (by decide) rfl
  · refine ⟨_, _, rfl, ?_, ?_⟩
    · decide
    · exact renameMigrations_assigns dirMigrations groupsFiveNine fsFiveNineHalf _ 9
        (by decide) (by decide) rfl

set_option maxRecDepth 100000 in
/-- Counterexample to C3 as stated: on the sorted one-group list whose version is the
greatest `int`, the first renamed pair goes to the least `int`, not to `M + 1`. -/
theorem renameMigrations_assigns_counterexample :
    ∃ st, renameMigrations dirMigrations groupsMaxInt fsMaxInt = .done st ∧
      st.renames =
        [("migrations/9223372036854775807_b.up.sql".toList,
          "migrations/-9223372036854775808_b.up.sql".toList),
         ("migrations/9223372036854775807_b.down.sql".toList,
          "migrations/-9223372036854775808_b.down.sql".toList)] ∧
      "migrations/-9223372036854775808_b.up.sql".toList ≠
        upName dirMigrations (9223372036854775807 + 1) "b".toList := by
  refine ⟨_, rfl, ?_, ?_⟩
  · decide
  · decide

/-! ## A name reached in the middle of a run -/

theorem initialCounter_eq_map (groups : List MigrationGroup) :
    initialCounter groups = (groups.map MigrationGroup.Version).getLast? := by
  unfold initialCounter
  rw [List.getLast?_map]

theorem workItems_append (a b : List MigrationGroup) :
    workItems (a ++ b) = workItems a ++ workItems b := by
  simp [workItems]

theorem workItems_cons (g : MigrationGroup) (rest : List MigrationGroup) :
    workItems (g :: rest) = g.BaseNames.tail.map (fun n => (g.Version, n)) ++ workItems rest := by
  simp [workItems]

theorem workItems_nil : workItems [] = [] := rfl

/-- The work items of a group list, split at a name that is not the first of its group. -/
theorem workItems_split (gpre gpost : List MigrationGroup) (v : Int) (npre npost : List Str)
    (n : Str) (hne : npre ≠ []) :
    workItems (gpre ++ [{ Version := v, BaseNames := npre ++ n :: npost }] ++ gpost) =
      workItems (gpre ++ [{ Version := v, BaseNames := npre }]) ++
        (v, n) :: (npost.map (fun m => (v, m)) ++ workItems gpost) := by
  obtain ⟨a, t, rfl⟩ := List.exists_cons_of_ne_nil hne
  simp [workItems_append, workItems_cons, workItems_nil]

theorem workItems_split_removed (gpre gpost : List MigrationGroup) (v : Int)
    (npre npost : List Str) (hne : npre ≠ []) :
    workItems (gpre ++ [{ Version := v, BaseNames := npre ++ npost }] ++ gpost) =
      workItems (gpre ++ [{ Version := v, BaseNames := npre }]) ++
        (npost.map (fun m => (v, m)) ++ workItems gpost) := by
  obtain ⟨a, t, rfl⟩ := List.exists_cons_of_ne_nil hne
  simp [workItems_append, workItems_cons, workItems_nil]

/-- C9: a name that is not the first of its group and whose up file is missing when the
loops reach it is passed over: the body of the loop leaves the state as it is (no call of
`os.Rename`, no fatal error, the counter not advanced), and the run goes on exactly as the
run on the group list without that name, so that the pairs renamed later receive the
numbers they would have received had the name been absent. The state `s` reached is the
one after the groups before and the names before it in its group. -/
theorem renameMigrations_skip_missing (path : Str) (gpre gpost : List MigrationGroup)
    (v : Int) (npre npost : List Str) (n : Str) (fs : FS) (M : Int) (s : RState)
    (hne : npre ≠ [])
    (hM : initialCounter
      (gpre ++ [{ Version := v, BaseNames := npre ++ n :: npost }] ++ gpost) = some M)
    (hreach : renameGroups path { fs := fs, highest := M, renames := [] }
      (gpre ++ [{ Version := v, BaseNames := npre }]) = .done s)
    (hup : s.fs (upName path v n) = none) :
    renameName path v s npre.length n = .done s ∧
    renameMigrations path
        (gpre ++ [{ Version := v, BaseNames := npre ++ n :: npost }] ++ gpost) fs =
      renameMigrations path
        (gpre ++ [{ Version := v, BaseNames := npre ++ npost }] ++ gpost) fs := by
  have hskip : renameName path v s 1 n = .done s := by
    rcases renameName_cases path v s n with ⟨_, hr⟩ | ⟨c, hc, _⟩ | ⟨c, d, hc, _⟩
    · exact hr
    · rw [hup] at hc; exact absurd hc (by simp)
    · rw [hup] at hc; exact absurd hc (by simp)
  constructor
  · obtain ⟨a, t, rfl⟩ := List.exists_cons_of_ne_nil hne
    rw [List.length_cons, renameName_index]
    exact hskip
  · have hM2 : initialCounter
        (gpre ++ [{ Version := v, BaseNames := npre ++ npost }] ++ gpost) = some M := by
      rw [initialCounter_eq_map] at hM ⊢
      simpa using hM
    rw [renameGroups_eq] at hreach
    rw [renameMigrations_eq hM, renameMigrations_eq hM2, workItems_split _ _ _ _ _ _ hne,
      workItems_split_removed _ _ _ _ _ hne, runItems_append, runItems_append, hreach]
    simp only [runItems, hskip]

set_option maxRecDepth 100000 in
/-- Witness of C9: `add_users` has no file on disk; it is passed over and the run is the
run without it. -/
theorem renameMigrations_skip_missing_witness :
    ∃ s, renameGroups dirMigrations { fs := fsInitOnly, highest := 1, renames := [] }
        ([] ++ [{ Version := 1, BaseNames := ["init".toList] }]) = .done s ∧
      s.fs (upName dirMigrations 1 "add_users".toList) = none ∧
      renameName dirMigrations 1 s ["init".toList].length "add_users".toList = .done s ∧
      renameMigrations dirMigrations
          ([] ++ [{ Version := 1, BaseNames := ["init".toList] ++ "add_users".toList :: [] }]
            ++ []) fsInitOnly =
        renameMigrations dirMigrations
          ([] ++ [{ Version := 1, BaseNames := ["init".toList] ++ [] }] ++ []) fsInitOnly := by
  refine ⟨_, rfl, ?_, ?_⟩
  · decide
  · exact renameMigrations_skip_missing dirMigrations [] [] 1 ["init".toList] []
      "add_users".toList fsInitOnly 1 _ (by decide) (by decide) rfl (by decide)

theorem renameNamesWith_model (path : Str) (v : Int) (names : List Str) :
    ∀ (st : RState) (i : Nat),
    renameNamesWith rename path v st i names = renameNames path v st i names := by
  induction names with
  | nil => intro st i; rfl
  | cons n rest ih =>
    intro st i
    have h0 : renameNameWith rename path v st i n = renameName path v st i n := rfl
    simp only [renameNamesWith, renameNames, h0]
    cases renameName path v st i n with
    | done st1 => exact ih st1 (i + 1)
    | fatal e st1 => rfl
    | panic => rfl

theorem renameGroupsWith_model (path : Str) (groups : List MigrationGroup) :
    ∀ st : RState, renameGroupsWith rename path st groups = renameGroups path st groups := by
  induction groups with
  | nil => intro st; rfl
  | cons g rest ih =>
    intro st
    simp only [renameGroupsWith, renameGroups, renameNamesWith_model]
    cases renameNames path g.Version st 0 g.BaseNames with
    | done st1 => exact ih st1
    | fatal e st1 => rfl
    | panic => rfl

/-- The loops over `rename` are the loops of `renameMigrations`. -/
theorem renameMigrationsWith_model (path : Str) (groups : List MigrationGroup) (fs : FS) :
    renameMigrationsWith rename path groups fs = renameMigrations path groups fs := by
  unfold renameMigrationsWith renameMigrations
  cases initialCounter groups with
  | none => rfl
  | some M => exact renameGroupsWith_model path groups _

theorem renameNamesWith_append (ren : FS → Str → Str → Option FS) (path : Str) (v : Int)
    (a b : List Str) : ∀ (st : RState) (i : Nat),
    renameNamesWith ren path v st i (a ++ b) =
      match renameNamesWith ren path v st i a with
      | .done s1 => renameNamesWith ren path v s1 (i + a.length) b
      | o => o := by
  induction a with
  | nil => intro st i; simp [renameNamesWith]
  | cons n rest ih =>
    intro st i
    simp only [List.cons_append, renameNamesWith, List.length_cons, List.append_eq]
    cases renameNameWith ren path v st i n with
    | done st1 =>
      simp only
      rw [ih st1 (i + 1)]
      have e : i + 1 + rest.length = i + (rest.length + 1) := by omega
      rw [e]
    | fatal e st1 => rfl
    | panic => rfl

theorem renameGroupsWith_append (ren : FS → Str → Str → Option FS) (path : Str)
    (a b : List MigrationGroup) : ∀ st : RState,
    renameGroupsWith ren path st (a ++ b) =
      match renameGroupsWith ren path st a with
      | .done s1 => renameGroupsWith ren path s1 b
      | o => o := by
  induction a with
  | nil => intro st; simp [renameGroupsWith]
  | cons g rest ih =>
    intro st
    simp only [List.cons_append, renameGroupsWith]
    cases renameNamesWith ren path g.Version st 0 g.BaseNames with
    | done st1 => exact ih st1
    | fatal e st1 => rfl
    | panic => rfl

/-- A run that reaches a name in the state `s` and is fatal at that name is fatal as a
whole, in the state of that failure. -/
theorem renameMigrationsWith_fatal_at (ren : FS → Str → Str → Option FS) (path : Str)
    (gpre gpost : List MigrationGroup) (v : Int) (npre npost : List Str) (n : Str) (fs : FS)
    (M : Int) (s st : RState) (err : Fatal)
    (hM : initialCounter
      (gpre ++ [{ Version := v, BaseNames := npre ++ n :: npost }] ++ gpost) = some M)
    (hreach : renameGroupsWith ren path { fs := fs, highest := M, renames := [] }
      (gpre ++ [{ Version := v, BaseNames := npre }]) = .done s)
    (hbody : renameNameWith ren path v s npre.length n = .fatal err st) :
    renameMigrationsWith ren path
        (gpre ++ [{ Version := v, BaseNames := npre ++ n :: npost }] ++ gpost) fs =
      .fatal err st := by
  unfold renameMigrationsWith
  rw [hM]
  simp only
  rw [renameGroupsWith_append] at hreach
  rw [List.append_assoc, renameGroupsWith_append]
  cases hA : renameGroupsWith ren path { fs := fs, highest := M, renames := [] } gpre with
  | fatal e st1 => rw [hA] at hreach; exact absurd hreach (by simp)
  | panic => rw [hA] at hreach; exact absurd hreach (by simp)
  | done s0 =>
    rw [hA] at hreach
    simp only [renameGroupsWith] at hreach ⊢
    cases hB : renameNamesWith ren path v s0 0 npre with
    | fatal e st1 => rw [hB] at hreach; exact absurd hreach (by simp)
    | panic => rw [hB] at hreach; exact absurd hreach (by simp)
    | done s1 =>
      rw [hB] at hreach
      simp only [Outcome.done.injEq] at hreach
      subst hreach
      rw [renameNamesWith_append, hB]
      simp only [Nat.zero_add, renameNamesWith, hbody]

theorem rename_missing (fs : FS) (oldName newName : Str) (h : fs oldName = none) :
    rename fs oldName newName = none := by
  unfold rename
  rw [h]

theorem rename_frame (fs fs1 : FS) (oldName newName : Str)
    (h : rename fs oldName newName = some fs1) :
    ∀ p, p ≠ oldName → p ≠ newName → fs1 p = fs p := by
  intro p h1 h2
  unfold rename at h
  cases hc : fs oldName with
  | none => rw [hc] at h; exact absurd h (by simp)
  | some c =>
    rw [hc] at h
    simp only [Option.some.injEq] at h
    rw [← h]
    exact moved_of_ne h2 h1

theorem renameOntoDirs_missing (dirs : List Str) (fs : FS) (oldName newName : Str)
    (h : fs oldName = none) : renameOntoDirs dirs fs oldName newName = none := by
  unfold renameOntoDirs
  split_ifs
  · rfl
  · exact rename_missing fs oldName newName h

theorem renameOntoDirs_frame (dirs : List Str) (fs fs1 : FS) (oldName newName : Str)
    (h : renameOntoDirs dirs fs oldName newName = some fs1) :
    ∀ p, p ≠ oldName → p ≠ newName → fs1 p = fs p := by
  unfold renameOntoDirs at h
  split_ifs at h
  exact rename_frame fs fs1 oldName newName h

/-- C10, amended: take any behaviour `ren` of `os.Rename` that fails on a missing source
and, when it succeeds, leaves every path other than the source and the destination as it
was. A name that is not the first of its group and whose up file is missing when the
loops reach it is passed over without error, whether or not its down file exists. A name
that is not the first of its group, whose up file exists and whose down file is missing
when the loops reach it, ends the run with a fatal error: on the rename of the up file
when that call fails, nothing moved, and otherwise on the rename of the down file, the up
file moved. -/
theorem renameMigrations_down_missing_fatal (ren : FS → Str → Str → Option FS) (path : Str)
    (gpre gpost : List MigrationGroup) (v : Int) (npre npost : List Str) (n : Str) (fs : FS)
    (M : Int) (s : RState)
    (hmissing : ∀ (fs0 : FS) (oldName newName : Str),
      fs0 oldName = none → ren fs0 oldName newName = none)
    (hframe : ∀ (fs0 fs1 : FS) (oldName newName : Str),
      ren fs0 oldName newName = some fs1 →
        ∀ p, p ≠ oldName → p ≠ newName → fs1 p = fs0 p)
    (hne : npre ≠ [])
    (hM : initialCounter
      (gpre ++ [{ Version := v, BaseNames := npre ++ n :: npost }] ++ gpost) = some M)
    (hreach : renameGroupsWith ren path { fs := fs, highest := M, renames := [] }
      (gpre ++ [{ Version := v, BaseNames := npre }]) = .done s) :
    (s.fs (upName path v n) = none →
      renameNameWith ren path v s npre.length n = .done s) ∧
    (s.fs (upName path v n) ≠ none → s.fs (downName path v n) = none →
      (ren s.fs (upName path v n) (upName path (wrapInt (s.highest + 1)) n) = none ∧
        renameMigrationsWith ren path
            (gpre ++ [{ Version := v, BaseNames := npre ++ n :: npost }] ++ gpost) fs =
          .fatal (Fatal.renameFailed (upName path v n)
              (upName path (wrapInt (s.highest + 1)) n))
            { s with highest := wrapInt (s.highest + 1) }) ∨
      (∃ fs1,
        ren s.fs (upName path v n) (upName path (wrapInt (s.highest + 1)) n) = some fs1 ∧
        renameMigrationsWith ren path
            (gpre ++ [{ Version := v, BaseNames := npre ++ n :: npost }] ++ gpost) fs =
          .fatal (Fatal.renameFailed (downName path v n)
              (downName path (wrapInt (s.highest + 1)) n))
            { fs := fs1, highest := wrapInt (s.highest + 1),
              renames := s.renames ++
                [(upName path v n, upName path (wrapInt (s.highest + 1)) n)] })) := by
  have hi : npre.length ≠ 0 := by
    intro hc
    exact hne (List.length_eq_zero.1 hc)
  constructor
  · intro hup
    unfold renameNameWith
    rw [if_neg hi]
    simp only [hup, if_true]
  · intro hup hdown
    cases hr : ren s.fs (upName path v n) (upName path (wrapInt (s.highest + 1)) n) with
    | none =>
      left
      refine ⟨rfl, ?_⟩
      apply renameMigrationsWith_fatal_at ren path gpre gpost v npre npost n fs M s _ _ hM
        hreach
      unfold renameNameWith
      rw [if_neg hi]
      simp only [hup, if_false, hr]
    | some fs1 =>
      right
      refine ⟨fs1, rfl, ?_⟩
      have hd1 : fs1 (downName path v n) = none := by
        rw [hframe _ _ _ _ hr _ (fun h => upName_ne_downName _ _ _ _ _ h.symm)
          (fun h => upName_ne_downName _ _ _ _ _ h.symm)]
        exact hdown
      have hr2 := hmissing fs1 (downName path v n)
        (downName path (wrapInt (s.highest + 1)) n) hd1
      apply renameMigrationsWith_fatal_at ren path gpre gpost v npre npost n fs M s _ _ hM
        hreach
      unfold renameNameWith
      rw [if_neg hi]
      simp only [hup, if_false, hr, hr2]

set_option maxRecDepth 100000 in
/-- Witness of C10 as amended: `add_users` has its up file only. With `os.Rename` failing
on a missing source only, the up file moves to version 2 and the run is fatal on the down
file. With `000002_add_users.up.sql` a directory, the run is fatal on the up file and
nothing has moved. -/
theorem renameMigrations_down_missing_fatal_witness :
    (∃ s, renameGroupsWith rename dirMigrations
        { fs := fsUpOnly, highest := 1, renames := [] }
        ([] ++ [{ Version := 1, BaseNames := ["init".toList] }]) = .done s ∧
      s.fs (upName dirMigrations 1 "add_users".toList) ≠ none ∧
      s.fs (downName dirMigrations 1 "add_users".toList) = none ∧
      (∃ err st, renameMigrationsWith rename dirMigrations groupsInitUsers fsUpOnly =
          .fatal err st ∧
        err = Fatal.renameFailed "migrations/000001_add_users.down.sql".toList
          "migrations/000002_add_users.down.sql".toList ∧
        st.fs "migrations/000002_add_users.up.sql".toList = some 2 ∧
        st.fs "migrations/000001_add_users.up.sql".toList = none) ∧
      ((rename s.fs (upName dirMigrations 1 "add_users".toList)
            (upName dirMigrations (wrapInt (s.highest + 1)) "add_users".toList) = none ∧
          renameMigrationsWith rename dirMigrations
              ([] ++ [{ Version := 1,
                        BaseNames := ["init".toList] ++ "add_users".toList :: [] }] ++ [])
              fsUpOnly =
            .fatal (Fatal.renameFailed (upName dirMigrations 1 "add_users".toList)
                (upName dirMigrations (wrapInt (s.highest + 1)) "add_users".toList))
              { s with highest := wrapInt (s.highest + 1) }) ∨
        (∃ fs1,
          rename s.fs (upName dirMigrations 1 "add_users".toList)
            (upName dirMigrations (wrapInt (s.highest + 1)) "add_users".toList) = some fs1 ∧
          renameMigrationsWith rename dirMigrations
              ([] ++ [{ Version := 1,
                        BaseNames := ["init".toList] ++ "add_users".toList :: [] }] ++ [])
              fsUpOnly =
            .fatal (Fatal.renameFailed (downName dirMigrations 1 "add_users".toList)
                (downName dirMigrations (wrapInt (s.highest + 1)) "add_users".toList))
              { fs := fs1, highest := wrapInt (s.highest + 1),
                renames := s.renames ++
                  [(upName dirMigrations 1 "add_users".toList,
                    upName dirMigrations (wrapInt (s.highest + 1)) "add_users".toList)] }))) ∧
    (∃ err st,
      renameMigrationsWith
          (renameOntoDirs ["migrations/000002_add_users.up.sql".toList]) dirMigrations
          groupsInitUsers fsUpOnly = .fatal err st ∧
      err = Fatal.renameFailed "migrations/000001_add_users.up.sql".toList
        "migrations/000002_add_users.up.sql".toList ∧
      st.renames = [] ∧
      st.fs "migrations/000001_add_users.up.sql".toList = some 2) := by
  constructor
  · refine ⟨_, rfl, ?_, ?_, ?_, ?_⟩
    · decide
    · decide
    · refine ⟨_, _, rfl, ?_, ?_, ?_⟩ <;> decide
    · exact (renameMigrations_down_missing_fatal rename dirMigrations [] [] 1
        ["init".toList] [] "add_users".toList fsUpOnly 1 _ rename_missing rename_frame
        (by decide) (by decide) rfl).2 (by decide) (by decide)
  · refine ⟨_, _, rfl, ?_, ?_, ?_⟩ <;> decide

set_option maxRecDepth 100000 in
/-- Counterexample to C10 as stated: `add_users` is reached with its down file on disk and
its up file missing, exactly one of the two, and the run ends well, with no call of
`os.Rename` and the down file still under version 1. -/
theorem renameMigrations_half_pair_counterexample :
    ∃ s, renameGroups dirMigrations { fs := fsDownOnly, highest := 1, renames := [] }
        [{ Version := 1, BaseNames := ["init".toList] }] = .done s ∧
      s.fs (upName dirMigrations 1 "add_users".toList) = none ∧
      s.fs (downName dirMigrations 1 "add_users".toList) ≠ none ∧
      ∃ st, renameMigrations dirMigrations groupsInitUsers fsDownOnly = .done st ∧
        st.renames = [] ∧
        st.fs "migrations/000001_add_users.down.sql".toList ≠ none := by
  refine ⟨_, rfl, ?_, ?_, _, rfl, ?_, ?_⟩
  · decide
  · decide
  · decide
  · decide

/-- C8, amended: renumbering is idempotent on group lists whose last group holds the
greatest version, as the sorted lists of `groupByVersionNumber` do, when that version `M`
is an `int` and the counter cannot overflow (`M` plus the number of names that are not
the first of their group is at most the greatest `int`): after a run that ended well, a
second run with the same path and groups on the resulting filesystem ends well with no
call of `os.Rename`, the filesystem unchanged. -/
theorem renameMigrations_idempotent (path : Str) (groups : List MigrationGroup) (fs : FS)
    (st : RState) (M : Int)
    (hM : initialCounter groups = some M)
    (hmax : ∀ g ∈ groups, g.Version ≤ M)
    (hmin : minInt ≤ M)
    (hfit : M + (workItems groups).length ≤ maxInt)
    (h : renameMigrations path groups fs = .done st) :
    renameMigrations path groups st.fs = .done { fs := st.fs, highest := M, renames := [] } := by
  rw [renameMigrations_eq hM] at h ⊢
  have hle : ∀ it ∈ workItems groups, it.1 ≤ M := by
    intro it hit
    obtain ⟨g, hg, hv, _⟩ := workItems_name_mem hit
    rw [hv]; exact hmax g hg
  obtain ⟨_, h2⟩ := runItems_sources_absent path M hmin (workItems groups) _ st hle
    (le_refl M) hfit h
  exact runItems_all_absent path (workItems groups) _ h2

set_option maxRecDepth 100000 in
/-- Witness of C8 as amended: with `init` and `add_users` on version 1, the second run does
nothing. -/
theorem renameMigrations_idempotent_witness :
    ∃ st, renameMigrations dirMigrations groupsInitUsers fsInitUsers = .done st ∧
      renameMigrations dirMigrations groupsInitUsers st.fs =
        .done { fs := st.fs, highest := 1, renames := [] } := by
  refine ⟨_, rfl, ?_⟩
  exact renameMigrations_idempotent dirMigrations groupsInitUsers fsInitUsers _ 1
    (by decide) (by decide) (by decide) (by decide) rfl

set_option maxRecDepth 100000 in
/-- Counterexample to C8 as stated. On a group list that is not sorted, a first run ends
well and the second run, on the filesystem the first one left, moves both files of `b`
from version 2 to version 1. On a sorted list reaching from the least to the greatest
`int`, the counter overflows and every run renames the files of `b` onto themselves. -/
theorem renameMigrations_idempotent_counterexample :
    (∃ st st2, renameMigrations dirMigrations groupsUnsorted fsUnsorted = .done st ∧
      renameMigrations dirMigrations groupsUnsorted st.fs = .done st2 ∧
      st2.renames =
        [("migrations/000002_b.up.sql".toList, "migrations/000001_b.up.sql".toList),
         ("migrations/000002_b.down.sql".toList, "migrations/000001_b.down.sql".toList)] ∧
      st.fs "migrations/000002_b.up.sql".toList ≠ none ∧
      st2.fs "migrations/000002_b.up.sql".toList = none) ∧
    (∃ st st2, renameMigrations dirMigrations groupsMinMax fsMinMax = .done st ∧
      renameMigrations dirMigrations groupsMinMax st.fs = .done st2 ∧
      st2.renames =
        [("migrations/-9223372036854775808_b.up.sql".toList,
          "migrations/-9223372036854775808_b.up.sql".toList),
         ("migrations/-9223372036854775808_b.down.sql".toList,
          "migrations/-9223372036854775808_b.down.sql".toList)]) := by
  constructor
  · refine ⟨_, _, rfl, rfl, ?_, ?_, ?_⟩
    · decide
    · decide
    · decide
  · refine ⟨_, _, rfl, rfl, ?_⟩
    decide

/-! ## Failure in the middle of a pair, and runs without conflict -/

/-- C11: when the loops reach a name that is not the first of its group, whose up file
exists and the rename of whose down file fails, `renameMigrations` ends with the fatal
error of that rename. The calls of `os.Rename` that succeeded are those made before the
name was reached and the move of its up file, so no later name is renamed, and the
filesystem at the abort is the one reached with that up file moved. -/
theorem renameMigrations_abort_mid_pair (path : Str) (gpre gpost : List MigrationGroup)
    (v : Int) (npre npost : List Str) (n : Str) (fs : FS) (M : Int) (s : RState) (c : Nat)
    (hne : npre ≠ [])
    (hM : initialCounter
      (gpre ++ [{ Version := v, BaseNames := npre ++ n :: npost }] ++ gpost) = some M)
    (hreach : renameGroups path { fs := fs, highest := M, renames := [] }
      (gpre ++ [{ Version := v, BaseNames := npre }]) = .done s)
    (hup : s.fs (upName path v n) = some c)
    (hfail : rename
      (moved s.fs (upName path v n) (upName path (wrapInt (s.highest + 1)) n) c)
      (downName path v n) (downName path (wrapInt (s.highest + 1)) n) = none) :
    renameMigrations path
        (gpre ++ [{ Version := v, BaseNames := npre ++ n :: npost }] ++ gpost) fs =
      .fatal (Fatal.renameFailed (downName path v n)
          (downName path (wrapInt (s.highest + 1)) n))
        { fs := moved s.fs (upName path v n) (upName path (wrapInt (s.highest + 1)) n) c,
          highest := wrapInt (s.highest + 1),
          renames := s.renames ++
            [(upName path v n, upName path (wrapInt (s.highest + 1)) n)] } := by
  have hdown : s.fs (downName path v n) = none := by
    have h1 : moved s.fs (upName path v n) (upName path (wrapInt (s.highest + 1)) n) c
        (downName path v n) = none := by
      cases hd : moved s.fs (upName path v n) (upName path (wrapInt (s.highest + 1)) n) c
          (downName path v n) with
      | none => rfl
      | some d => simp [rename, hd] at hfail
    rw [moved_of_ne (fun h => upName_ne_downName _ _ _ _ _ h.symm)
      (fun h => upName_ne_downName _ _ _ _ _ h.symm)] at h1
    exact h1
  rw [renameGroups_eq] at hreach
  rw [renameMigrations_eq hM, workItems_split _ _ _ _ _ _ hne, runItems_append, hreach]
  rcases renameName_cases path v s n with ⟨hc, _⟩ | ⟨c1, hc1, _, hr⟩ | ⟨c1, d, _, hd, _⟩
  · rw [hup] at hc; exact absurd hc (by simp)
  · rw [hup] at hc1
    cases hc1
    simp only [runItems, hr]
  · rw [hdown] at hd; exact absurd hd (by simp)

set_option maxRecDepth 100000 in
/-- Witness of C11: on version 5, `second` is renamed to version 10, then `third`, which
has only its up file, aborts the run once that file has moved to version 11. The
successful calls are the two of `second` and the up move of `third`; `fourth`, later in
the same group, and `tenth`, in the next group, have both files on disk and stay where
they were. -/
theorem renameMigrations_abort_mid_pair_witness :
    ∃ s, renameGroups dirMigrations { fs := fsAbort, highest := 9, renames := [] }
        ([] ++ [{ Version := 5, BaseNames := ["first".toList, "second".toList] }]) =
          .done s ∧
      s.renames =
        [("migrations/000005_second.up.sql".toList, "migrations/000010_second.up.sql".toList),
         ("migrations/000005_second.down.sql".toList,
          "migrations/000010_second.down.sql".toList)] ∧
      s.fs (upName dirMigrations 5 "third".toList) = some 4 ∧
      rename
        (moved s.fs (upName dirMigrations 5 "third".toList)
          (upName dirMigrations (wrapInt (s.highest + 1)) "third".toList) 4)
        (downName dirMigrations 5 "third".toList)
        (downName dirMigrations (wrapInt (s.highest + 1)) "third".toList) = none ∧
      renameMigrations dirMigrations
          ([] ++ [{ Version := 5,
                    BaseNames := ["first".toList, "second".toList] ++
                      "third".toList :: ["fourth".toList] }] ++
            [{ Version := 9, BaseNames := ["ninth".toList, "tenth".toList] }]) fsAbort =
        .fatal (Fatal.renameFailed (downName dirMigrations 5 "third".toList)
            (downName dirMigrations (wrapInt (s.highest + 1)) "third".toList))
          { fs := moved s.fs (upName dirMigrations 5 "third".toList)
              (upName dirMigrations (wrapInt (s.highest + 1)) "third".toList) 4,
            highest := wrapInt (s.highest + 1),
            renames := s.renames ++
              [(upName dirMigrations 5 "third".toList,
                upName dirMigrations (wrapInt (s.highest + 1)) "third".toList)] } ∧
      ∃ err st, renameMigrations dirMigrations groupsAbort fsAbort = .fatal err st ∧
        st.renames =
          [("migrations/000005_second.up.sql".toList,
            "migrations/000010_second.up.sql".toList),
           ("migrations/000005_second.down.sql".toList,
            "migrations/000010_second.down.sql".toList),
           ("migrations/000005_third.up.sql".toList,
            "migrations/000011_third.up.sql".toList)] ∧
        st.fs "migrations/000011_third.up.sql".toList = some 4 ∧
        st.fs "migrations/000005_fourth.up.sql".toList = some 5 ∧
        st.fs "migrations/000005_fourth.down.sql".toList = some 6 ∧
        st.fs "migrations/000009_tenth.up.sql".toList = some 9 ∧
        st.fs "migrations/000009_tenth.down.sql".toList = some 10 ∧
        st.fs "migrations/000012_fourth.up.sql".toList = none ∧
        st.fs "migrations/000012_tenth.up.sql".toList = none := by
  refine ⟨_, rfl, ?_, ?_, ?_, ?_, ?_⟩
  · decide
  · decide
  · rfl
  · exact renameMigrations_abort_mid_pair dirMigrations []
      [{ Version := 9, BaseNames := ["ninth".toList, "tenth".toList] }] 5
      ["first".toList, "second".toList] ["fourth".toList] "third".toList fsAbort 9 _ 4
      (by decide) (by decide) rfl (by decide) rfl
  · refine ⟨_, _, rfl, ?_, ?_, ?_, ?_, ?_, ?_, ?_, ?_⟩ <;> decide

theorem workItems_eq_nil {groups : List MigrationGroup}
    (h : ∀ g ∈ groups, g.BaseNames.length = 1) : workItems groups = [] := by
  induction groups with
  | nil => rfl
  | cons g rest ih =>
    rw [workItems_cons, ih (fun x hx => h x (List.mem_cons_of_mem _ hx))]
    have hg := h g (List.mem_cons_self _ _)
    cases hb : g.BaseNames with
    | nil => simp
    | cons a t =>
      rw [hb] at hg
      simp only [List.length_cons, Nat.add_left_eq_self, List.length_eq_zero] at hg
      simp [hg]

/-- C14: on a non-empty group list in which every group holds exactly one logical name,
`renameMigrations` ends well on every filesystem, with no call of `os.Rename`, the
filesystem unchanged (and the counter still the version of the last group). -/
theorem renameMigrations_no_conflict (path : Str) (groups : List MigrationGroup) (fs : FS)
    (hne : groups ≠ [])
    (hone : ∀ g ∈ groups, g.BaseNames.length = 1) :
    ∃ M, initialCounter groups = some M ∧
      renameMigrations path groups fs = .done { fs := fs, highest := M, renames := [] } := by
  obtain ⟨g, t, rfl⟩ := List.exists_cons_of_ne_nil hne
  obtain ⟨M, hM⟩ := initialCounter_of_mem (List.mem_cons_self g t)
  refine ⟨M, hM, ?_⟩
  rw [renameMigrations_eq hM, workItems_eq_nil hone]
  rfl

/-- Witness of C14: `init` alone on version 1 and `add_users` alone on version 2. -/
theorem renameMigrations_no_conflict_witness :
    groupsNoConflict ≠ [] ∧ (∀ g ∈ groupsNoConflict, g.BaseNames.length = 1) ∧
    ∃ M, initialCounter groupsNoConflict = some M ∧
      renameMigrations dirMigrations groupsNoConflict fsInitUsers =
        .done { fs := fsInitUsers, highest := M, renames := [] } :=
  ⟨by decide, by decide,
    renameMigrations_no_conflict dirMigrations groupsNoConflict fsInitUsers
      (by decide) (by decide)⟩

/-! ## Groups are never empty -/

theorem groups_nonempty {migrations : List Str} {groups : List MigrationGroup}
    (h : groupByVersionNumber migrations = .ok groups) :
    (∀ g ∈ groups, g.BaseNames ≠ []) ∧ (groups = [] ↔ migrations = []) := by
  obtain ⟨st, inv, rfl⟩ := groupByVersionNumber_ok h
  constructor
  · intro g hg
    obtain ⟨e, he, rfl⟩ := mem_sortGroups.1 hg
    exact inv.nonempty e he
  · constructor
    · intro hnil
      cases hm : migrations with
      | nil => rfl
      | cons f rest =>
        exfalso
        have h1 : logicalName f ∈ st.addedBaseNames :=
          (inv.added_iff _).2 (List.mem_map.2 ⟨f, by rw [hm]; exact List.mem_cons_self _ _, rfl⟩)
        have h2 := ((sortGroups_names st.migrationGroupsMap).trans inv.names_perm).mem_iff.2 h1
        rw [hnil] at h2
        simp at h2
    · intro hm
      subst hm
      have h1 : ∀ n, n ∉ st.addedBaseNames := fun n hn => by
        have := (inv.added_iff n).1 hn
        simp at this
      cases hs : sortGroups st.migrationGroupsMap with
      | nil => rfl
      | cons g rest =>
        exfalso
        have hg : g ∈ sortGroups st.migrationGroupsMap := by
          rw [hs]; exact List.mem_cons_self _ _
        obtain ⟨e, he, rfl⟩ := mem_sortGroups.1 hg
        obtain ⟨a, t, hat⟩ := List.exists_cons_of_ne_nil (inv.nonempty e he)
        exact h1 a ((inv.sublist e he).subset (by rw [hat]; exact List.mem_cons_self _ _))

/-- C17: when `groupByVersionNumber` succeeds, every returned group has at least one
logical name, and the list of groups is empty exactly when the input is empty. -/
theorem groupByVersionNumber_nonempty (migrations : List Str) (groups : List MigrationGroup)
    (h : groupByVersionNumber migrations = .ok groups) :
    (∀ g ∈ groups, 1 ≤ g.BaseNames.length ∧ ∃ n0, g.BaseNames.head? = some n0) ∧
    (groups = [] ↔ migrations = []) := by
  obtain ⟨h1, h2⟩ := groups_nonempty h
  refine ⟨?_, h2⟩
  intro g hg
  obtain ⟨a, t, hat⟩ := List.exists_cons_of_ne_nil (h1 g hg)
  rw [hat]
  exact ⟨by simp, a, rfl⟩

/-- Witness of C17 on the history where `init` and `add_users` claim version 1. -/
theorem groupByVersionNumber_nonempty_witness :
    groupByVersionNumber historyInitUsers = .ok groupsInitUsers ∧
    (∀ g ∈ groupsInitUsers, 1 ≤ g.BaseNames.length ∧ ∃ n0, g.BaseNames.head? = some n0) ∧
    (groupsInitUsers = [] ↔ historyInitUsers = []) :=
  ⟨by decide, groupByVersionNumber_nonempty historyInitUsers groupsInitUsers (by decide)⟩

/-- C18: `renameMigrations` reads the version of the last group without a length check.
On the groups of a history accepted by `groupByVersionNumber`, the index `len - 1` is in
bounds (the list of groups is not empty and the read gives its last version) exactly when
the history has at least one file; on the empty history the run panics, whatever the path
and the filesystem, and on any other history it does not. -/
theorem renameMigrations_last_index (history : List Str) (groups : List MigrationGroup)
    (h : groupByVersionNumber history = .ok groups) :
    (0 < groups.length ↔ history ≠ []) ∧
    ((∃ M, initialCounter groups = some M) ↔ history ≠ []) ∧
    ∀ path fs, (renameMigrations path groups fs = .panic ↔ history = []) := by
  obtain ⟨_, h2⟩ := groups_nonempty h
  have hlen : 0 < groups.length ↔ history ≠ [] := by
    rw [List.length_pos, Ne, Ne, h2]
  have hcnt : (∃ M, initialCounter groups = some M) ↔ history ≠ [] := by
    rw [← hlen]
    constructor
    · rintro ⟨M, hM⟩
      obtain ⟨last, hl, _⟩ := initialCounter_some hM
      exact List.length_pos_of_mem (List.mem_of_mem_getLast? hl)
    · intro hp
      obtain ⟨g, t, rfl⟩ := List.exists_cons_of_ne_nil (List.length_pos.1 hp)
      exact initialCounter_of_mem (List.mem_cons_self g t)
  refine ⟨hlen, hcnt, ?_⟩
  intro path fs
  constructor
  · intro hp
    by_contra hne
    obtain ⟨M, hM⟩ := hcnt.2 hne
    rw [renameMigrations_eq hM] at hp
    have : ∀ (items : List (Int × Str)) (st : RState), runItems path st items ≠ .panic := by
      intro items
      induction items with
      | nil => intro st; simp [runItems]
      | cons it rest ih =>
        intro st
        rcases renameName_cases path it.1 st it.2 with ⟨_, hr⟩ | ⟨c, _, _, hr⟩ |
          ⟨c, d, _, _, hr⟩
        · simp only [runItems, hr]; exact ih st
        · simp only [runItems, hr]; simp
        · simp only [runItems, hr]; exact ih _
    exact this _ _ hp
  · intro hnil
    have hg : groups = [] := h2.2 hnil
    subst hg
    rfl

/-- Witness of C18: the empty history gives no group, and the run panics. -/
theorem renameMigrations_last_index_witness :
    groupByVersionNumber [] = .ok [] ∧
    (0 < ([] : List MigrationGroup).length ↔ ([] : List Str) ≠ []) ∧
    ((∃ M, initialCounter [] = some M) ↔ ([] : List Str) ≠ []) ∧
    ∀ path fs, (renameMigrations path [] fs = .panic ↔ ([] : List Str) = []) :=
  ⟨by decide, renameMigrations_last_index [] [] (by decide)⟩

/-! ## Fatal errors of the grouper -/

theorem groupStep_ok {st : GroupState} {f : Str} {v : Int} (hv : parseVersion f = some v) :
    ∃ st1, groupStep st f = .ok st1 := by
  unfold parseVersion at hv
  unfold groupStep
  rw [hv]
  simp only
  split_ifs
  · exact ⟨_, rfl⟩
  · exact ⟨_, rfl⟩

theorem groupStep_error {st : GroupState} {f : Str} (hv : parseVersion f = none) :
    groupStep st f = .error (Fatal.invalidVersion (versionStr f) f) := by
  unfold parseVersion at hv
  unfold groupStep
  rw [hv]

/-- The loop ends with the error of the first file whose version does not parse, and ends
well when there is none. -/
theorem groupLoop_find (ms : List Str) : ∀ st : GroupState,
    match ms.find? (fun f => (parseVersion f).isNone) with
    | some f => groupLoop st ms = .error (Fatal.invalidVersion (versionStr f) f)
    | none => ∃ st1, groupLoop st ms = .ok st1 := by
  induction ms with
  | nil => intro st; exact ⟨st, rfl⟩
  | cons f rest ih =>
    intro st
    rw [List.find?_cons]
    cases hv : parseVersion f with
    | none =>
      simp only [Option.isNone_none]
      simp only [groupLoop, groupStep_error hv]
    | some v =>
      simp only [Option.isNone_some]
      obtain ⟨st1, h1⟩ := @groupStep_ok st f v hv
      simp only [groupLoop, h1]
      exact ih st1

/-- C12, amended: `groupByVersionNumber` fails fatally exactly when some file of the input
has a version text, the part of its base name before the first underscore, that
`strconv.Atoi` rejects: a text that is not an optional sign followed by decimal digits, or
whose value lies outside the range of `int`. Every file is checked, files with an already
seen logical name included, and the error names the first such file of the input. -/
theorem groupByVersionNumber_fatal (migrations : List Str) :
    (∀ f, parseVersion f = none ↔
      ¬ ∃ v : Int, parseSigned (versionStr f) = some v ∧ minInt ≤ v ∧ v ≤ maxInt) ∧
    ((∃ e, groupByVersionNumber migrations = .error e) ↔
      ∃ f ∈ migrations, parseVersion f = none) ∧
    (match migrations.find? (fun f => (parseVersion f).isNone) with
     | some f =>
       groupByVersionNumber migrations = .error (Fatal.invalidVersion (versionStr f) f)
     | none => ∃ groups, groupByVersionNumber migrations = .ok groups) := by
  have hmain : match migrations.find? (fun f => (parseVersion f).isNone) with
     | some f =>
       groupByVersionNumber migrations = .error (Fatal.invalidVersion (versionStr f) f)
     | none => ∃ groups, groupByVersionNumber migrations = .ok groups := by
    have h := groupLoop_find migrations { addedBaseNames := [], migrationGroupsMap := [] }
    unfold groupByVersionNumber
    cases hf : migrations.find? (fun f => (parseVersion f).isNone) with
    | none =>
      rw [hf] at h
      obtain ⟨st1, h1⟩ := h
      simp only [h1]
      exact ⟨_, rfl⟩
    | some f =>
      rw [hf] at h
      simp only [h]
  refine ⟨?_, ?_, hmain⟩
  · intro f
    unfold parseVersion atoi
    cases hp : parseSigned (versionStr f) with
    | none => simp
    | some v =>
      simp only [Option.some.injEq, exists_eq_left']
      split_ifs with hr
      · simp [hr]
      · simp only [true_iff]
        exact hr
  · cases hf : migrations.find? (fun f => (parseVersion f).isNone) with
    | none =>
      rw [hf] at hmain
      obtain ⟨groups, hg⟩ := hmain
      rw [List.find?_eq_none] at hf
      constructor
      · rintro ⟨e, he⟩
        rw [hg] at he
        exact absurd he (by simp)
      · rintro ⟨f, hfm, hfn⟩
        exact absurd (by rw [hfn]; rfl) (hf f hfm)
    | some f =>
      rw [hf] at hmain
      constructor
      · intro _
        have h1 := List.find?_some hf
        have h2 := List.mem_of_find?_eq_some hf
        exact ⟨f, h2, by simpa using h1⟩
      · intro _
        exact ⟨_, hmain⟩

/-- Counterexample to C12 as stated: the version text of the only file is a decimal
integer, twenty digits `9`, and the grouping is fatal all the same, the number being too
large for an `int`. -/
theorem groupByVersionNumber_fatal_counterexample :
    versionStr fileTooLarge = "99999999999999999999".toList ∧
    (∀ c ∈ versionStr fileTooLarge, isDigit c = true) ∧
    parseSigned (versionStr fileTooLarge) = some 99999999999999999999 ∧
    groupByVersionNumber [fileTooLarge] =
      .error (Fatal.invalidVersion "99999999999999999999".toList fileTooLarge) := by
  refine ⟨by decide, by decide, by decide, by decide⟩

/-! ## The history reader: claims -/

theorem collectMigrationFiles_eq (path : Str) (lines : List Str) : ∀ acc : List Str,
    collectMigrationFiles path acc lines = acc ++ lines.filter (isMigrationFile path) := by
  induction lines with
  | nil => intro acc; simp [collectMigrationFiles]
  | cons l rest ih =>
    intro acc
    unfold collectMigrationFiles
    by_cases h : isMigrationFile path l = true
    · rw [if_pos h, ih, List.filter_cons_of_pos h]
      simp
    · rw [if_neg h, ih, List.filter_cons_of_neg h]

theorem directlyUnder_starts {path line : Str} (h : directlyUnder path line = true) :
    hasPrefix line path = true := by
  unfold directlyUnder at h
  simp only [Bool.and_eq_true] at h
  have h1 := h.1
  unfold hasPrefix at h1 ⊢
  rw [List.isPrefixOf_iff_prefix] at h1 ⊢
  split_ifs at h1
  · exact h1
  · exact (List.prefix_append path ['/']).trans h1

/-- C13, amended: for a history query that succeeds, `getMigrationFiles` returns, in the
order of the output, exactly the lines that begin with the text of the path and end in
`.up.sql` or `.down.sql`. Every such line naming a file directly under the directory is
among them. (So are lines naming files in subdirectories, and in directories whose name
begins with the path.) -/
theorem getMigrationFiles_lines (migrationPath output : Str) :
    getMigrationFiles migrationPath (some output) =
      .ok ((splitLines output).filter (fun line =>
        hasPrefix line migrationPath &&
          (hasSuffix line ".up.sql".toList || hasSuffix line ".down.sql".toList))) ∧
    ∀ files, getMigrationFiles migrationPath (some output) = .ok files →
      ∀ line ∈ splitLines output, directlyUnder migrationPath line = true →
        (hasSuffix line ".up.sql".toList || hasSuffix line ".down.sql".toList) = true →
        line ∈ files := by
  have h1 : getMigrationFiles migrationPath (some output) =
      .ok ((splitLines output).filter (fun line =>
        hasPrefix line migrationPath &&
          (hasSuffix line ".up.sql".toList || hasSuffix line ".down.sql".toList))) := by
    unfold getMigrationFiles
    simp only [collectMigrationFiles_eq, List.nil_append]
    rfl
  refine ⟨h1, ?_⟩
  intro files hf line hl hd hs
  rw [h1] at hf
  cases hf
  rw [List.mem_filter]
  refine ⟨hl, ?_⟩
  simp only [Bool.and_eq_true]
  exact ⟨directlyUnder_starts hd, hs⟩

/-- Counterexample to C13 as stated: with the path `migrations`, a line naming a file in
the subdirectory `migrations/sub` and a line naming a file in the directory
`migrations_old` are both returned, and neither is directly under `migrations`. -/
theorem getMigrationFiles_lines_counterexample :
    getMigrationFiles dirMigrations (some outputElsewhere) =
      .ok ["migrations/sub/000001_a.up.sql".toList,
           "migrations_old/000001_b.down.sql".toList] ∧
    directlyUnder dirMigrations "migrations/sub/000001_a.up.sql".toList = false ∧
    directlyUnder dirMigrations "migrations_old/000001_b.down.sql".toList = false := by
  refine ⟨by decide, by decide, by decide⟩

/-! ## The committer: claims -/

/-- C16: `commitChanges` runs the commit exactly when staging and the status query succeed
and the status output is not empty; on an empty status output it runs no commit, prints
that there is nothing to commit and ends well; and it ends with a fatal error exactly when
staging fails, the status query fails, or the commit it ran fails. -/
theorem commitChanges_spec (migrationPath : Str) (git : GitResults) :
    (GitOp.commit commitMessage ∈ (commitChanges migrationPath git).ops ↔
      git.stageOk = true ∧ ∃ out, git.status = some out ∧ out ≠ []) ∧
    (∀ m, GitOp.commit m ∈ (commitChanges migrationPath git).ops → m = commitMessage) ∧
    ((git.stageOk = true ∧ git.status = some []) →
      (∀ m, GitOp.commit m ∉ (commitChanges migrationPath git).ops) ∧
      (commitChanges migrationPath git).printed =
        ["No changes to commit for migration files.".toList] ∧
      (commitChanges migrationPath git).fatal = none) ∧
    ((commitChanges migrationPath git).fatal ≠ none ↔
      git.stageOk = false ∨ (git.stageOk = true ∧ git.status = none) ∨
      (GitOp.commit commitMessage ∈ (commitChanges migrationPath git).ops ∧
        git.commitOk = false)) := by
  obtain ⟨stageOk, status, commitOk⟩ := git
  cases stageOk with
  | false => simp [commitChanges]
  | true =>
    cases status with
    | none => simp [commitChanges]
    | some out =>
      cases out with
      | nil => simp [commitChanges]
      | cons c cs =>
        cases commitOk with
        | false => simp [commitChanges]
        | true => simp [commitChanges]

/-! ## File names read back -/

/-- The base name of a file placed in a directory is the name of the file. -/
theorem base_file (path file : Str) (hne : file ≠ []) (hs : '/' ∉ file) :
    base (path ++ '/' :: file) = file := by
  obtain ⟨init, last, hlast⟩ : ∃ init last, file = init ++ [last] := by
    rcases List.eq_nil_or_concat file with h | ⟨init, last, h⟩
    · exact absurd h hne
    · exact ⟨init, last, by rw [h, List.concat_eq_append]⟩
  have hl : last ≠ '/' := by
    intro hc
    apply hs
    rw [hlast, hc]
    simp
  have hdrop : (path ++ '/' :: file).rdropWhile (fun c => c == '/') = path ++ '/' :: file := by
    have e : path ++ '/' :: file = (path ++ '/' :: init) ++ [last] := by
      rw [hlast]; simp
    rw [e]
    exact List.rdropWhile_concat_neg _ _ _ (by simpa using hl)
  have htake : (path ++ '/' :: file).rtakeWhile (fun c => c != '/') = file := by
    unfold List.rtakeWhile
    have e : (path ++ '/' :: file).reverse = file.reverse ++ '/' :: path.reverse := by
      simp
    rw [e, takeWhile_sep '/' path.reverse file.reverse (by simpa using hs)]
    exact List.reverse_reverse file
  unfold base
  have hne2 : path ++ '/' :: file ≠ [] := by simp
  rw [if_neg hne2]
  simp only [hdrop, if_neg hne2, htake]

theorem slash_not_mem_fmt06d (v : Int) : '/' ∉ fmt06d v := by
  intro hc
  unfold fmt06d at hc
  split_ifs at hc
  · rcases List.mem_cons.1 hc with hc | hc
    · exact absurd hc (by decide)
    · exact absurd ((padZeros_spec 5 v.natAbs).2.1 _ hc) (by decide)
  · exact absurd ((padZeros_spec 6 v.toNat).2.1 _ hc) (by decide)

theorem atoi_fmt06d {v : Int} (hmin : minInt ≤ v) (hmax : v ≤ maxInt) :
    atoi (fmt06d v) = some v := by
  unfold atoi
  rw [parseSigned_fmt06d]
  simp only
  rw [if_pos ⟨hmin, hmax⟩]

/-- A suffix without underscore of a text after an underscore lies within that text. -/
theorem down_not_suffix_of_body (a n : Str)
    (h : hasSuffix n ".down.sql".toList = false) :
    hasSuffix (a ++ '_' :: n) ".down.sql".toList = false := by
  unfold hasSuffix at h ⊢
  rw [Bool.eq_false_iff, Ne, List.isSuffixOf_iff_suffix] at h ⊢
  intro hc
  have h2 : ('_' :: n) <:+ (a ++ '_' :: n) := List.suffix_append a ('_' :: n)
  have hu : '_' ∉ ".down.sql".toList := by decide
  rcases List.suffix_or_suffix_of_suffix hc h2 with h3 | h3
  · rcases List.suffix_cons_iff.1 h3 with h4 | h4
    · exact hu (by rw [h4]; exact List.mem_cons_self _ _)
    · exact h h4
  · exact hu (h3.subset (List.mem_cons_self _ _))

/-- C15, amended: the name written by the renumberer reads back in the grouper. For every
directory path, every version `v` that is an `int` and every logical name `n` without path
separator, the paths `<path>/<%06d of v>_<n>.up.sql` and `.down.sql` both parse to the
version `v`; the down path parses to the logical name `n`, and so does the up path when
`n` does not end in `.down.sql`. -/
theorem fileName_roundtrip (path : Str) (v : Int) (n : Str)
    (hmin : minInt ≤ v) (hmax : v ≤ maxInt) (hn : '/' ∉ n) :
    parseVersion (upName path v n) = some v ∧
    parseVersion (downName path v n) = some v ∧
    logicalName (downName path v n) = n ∧
    (hasSuffix n ".down.sql".toList = false → logicalName (upName path v n) = n) := by
  have hfile : ∀ suf : Str, '/' ∉ suf →
      base (path ++ '/' :: (fmt06d v ++ '_' :: (n ++ suf))) =
        fmt06d v ++ '_' :: (n ++ suf) := by
    intro suf hsuf
    apply base_file
    · simp
    · intro hc
      rcases List.mem_append.1 hc with hc | hc
      · exact slash_not_mem_fmt06d v hc
      · rcases List.mem_cons.1 hc with hc | hc
        · exact absurd hc (by decide)
        · rcases List.mem_append.1 hc with hc | hc
          · exact hn hc
          · exact hsuf hc
  have hup := hfile ".up.sql".toList (by decide)
  have hdown := hfile ".down.sql".toList (by decide)
  have hassoc : ∀ suf : Str, fmt06d v ++ '_' :: (n ++ suf) = (fmt06d v ++ '_' :: n) ++ suf := by
    intro suf; simp
  refine ⟨?_, ?_, ?_, ?_⟩
  · unfold parseVersion versionStr upName splitHead
    rw [hup, takeWhile_sep '_' _ _ (underscore_not_mem_fmt06d v)]
    exact atoi_fmt06d hmin hmax
  · unfold parseVersion versionStr downName splitHead
    rw [hdown, takeWhile_sep '_' _ _ (underscore_not_mem_fmt06d v)]
    exact atoi_fmt06d hmin hmax
  · unfold logicalName downName
    rw [hdown, hassoc, trimSuffix_of_not (up_not_suffix_of_down _), trimSuffix_append]
    unfold cutAfter
    rw [dropWhile_sep '_' _ _ (underscore_not_mem_fmt06d v)]
    rfl
  · intro hsuf
    unfold logicalName upName
    rw [hup, hassoc, trimSuffix_append, trimSuffix_of_not (down_not_suffix_of_body _ _ hsuf)]
    unfold cutAfter
    rw [dropWhile_sep '_' _ _ (underscore_not_mem_fmt06d v)]
    rfl

/-- Witness of C15 as amended: version 7 and the name `add_users`. -/
theorem fileName_roundtrip_witness :
    minInt ≤ 7 ∧ (7 : Int) ≤ maxInt ∧ '/' ∉ "add_users".toList ∧
    parseVersion (upName dirMigrations 7 "add_users".toList) = some 7 ∧
    parseVersion (downName dirMigrations 7 "add_users".toList) = some 7 ∧
    logicalName (downName dirMigrations 7 "add_users".toList) = "add_users".toList ∧
    (hasSuffix "add_users".toList ".down.sql".toList = false →
      logicalName (upName dirMigrations 7 "add_users".toList) = "add_users".toList) :=
  ⟨by decide, by decide, by decide,
    fileName_roundtrip dirMigrations 7 "add_users".toList (by decide) (by decide)
      (by decide)⟩

/-- Counterexample to C15 as stated: the up path of version 1 and the logical name
`a.down.sql`, which has no path separator, parses to the logical name `a`. -/
theorem fileName_roundtrip_counterexample :
    '/' ∉ "a.down.sql".toList ∧
    upName dirMigrations 1 "a.down.sql".toList =
      "migrations/000001_a.down.sql.up.sql".toList ∧
    logicalName (upName dirMigrations 1 "a.down.sql".toList) = "a".toList ∧
    "a".toList ≠ "a.down.sql".toList := by
  refine ⟨by decide, by decide, by decide, by decide⟩

end RebaseMigration
